import Mathlib

/-!
# russian-asset-list: the list merger, the rich-text flattener and the response
extractor of `main.go`

A shallow embedding of `src/main.go`.

* A Go `map[string]V` is a `GoMap V`: finitely many key/value pairs, no key
  twice.  The order of the pairs is the order in which a `range` loop visits
  them (Go leaves that order open, so a statement for every `GoMap` is a
  statement for every order).
* Go maps are reference values.  `List.Update` and `mergeEntries` mutate the
  maps they are handed, and the entries that `Update` appends are the very map
  objects of the incoming batch.  The embedding therefore passes a `Heap`
  (address to map) explicitly; a Go `[]map[string]string` is a list of
  addresses.
* A map may be nil (an entry decoded from JSON `null`), and assigning to a nil
  map panics.  `UpdateNil` is `List.Update` over a heap with nil maps, with the
  panic as an outcome; `Update` is the same code where no map is nil
  (`UpdateNil_of_no_nil`).
-/

namespace AssetList

/-! ## Go maps -/

/-- First value stored under key `k` in a list of pairs. -/
def lookupL {V : Type} (k : String) : List (String × V) → Option V
  | [] => none
  | (k', v) :: t => if k' = k then some v else lookupL k t

/-- Assignment `m[k] = v` on a list of pairs: overwrite the pair with key `k`
if there is one, otherwise add a new pair. -/
def setL {V : Type} (k : String) (v : V) : List (String × V) → List (String × V)
  | [] => [(k, v)]
  | (k', v') :: t => if k' = k then (k', v) :: t else (k', v') :: setL k v t

/-- A Go `map[string]V`. -/
structure GoMap (V : Type) where
  /-- The key/value pairs, in the order a `range` loop visits them. -/
  entries : List (String × V)
  /-- No key occurs twice. -/
  nodup : (entries.map Prod.fst).Nodup

namespace GoMap

instance {V : Type} [DecidableEq V] : DecidableEq (GoMap V) := fun a b =>
  decidable_of_iff (a.entries = b.entries)
    ⟨fun h => by cases a; cases b; cases h; rfl, fun h => congrArg entries h⟩

/-- The empty map, `map[string]V{}`. -/
def empty {V : Type} : GoMap V := ⟨[], List.nodup_nil⟩

/-- The two-result index expression `v, ok := m[k]`. -/
def lookup {V : Type} (m : GoMap V) (k : String) : Option V := lookupL k m.entries

/-- The assignment `m[k] = v`; it keeps the keys distinct. -/
def set {V : Type} (m : GoMap V) (k : String) (v : V) : GoMap V :=
  ⟨setL k v m.entries, by
    have keys : ∀ l : List (String × V), (setL k v l).map Prod.fst =
        if k ∈ l.map Prod.fst then l.map Prod.fst else l.map Prod.fst ++ [k] := by
      intro l
      induction l with
      | nil => simp [setL]
      | cons p t ih =>
        obtain ⟨k', v'⟩ := p
        by_cases h : k' = k
        · subst h; simp [setL]
        · have h' : ¬ k = k' := fun e => h e.symm
          simp only [setL, h, if_false, List.map_cons, ih, List.mem_cons, h', false_or]
          split <;> simp
    rw [keys]
    split
    · exact m.nodup
    · rename_i hk
      rw [List.nodup_append]
      refine ⟨m.nodup, List.nodup_singleton k, ?_⟩
      intro a ha hb
      rw [List.mem_singleton] at hb
      subst hb
      exact hk ha⟩

/-- The one-result index expression `m[k]` on a `map[string]string`: the empty
string when the key is absent. -/
def get (m : GoMap String) (k : String) : String := (m.lookup k).getD ""

/-- The one-result index expression `m[k]` on a `map[string]bool`: `false`
when the key is absent. -/
def getBool (m : GoMap Bool) (k : String) : Bool := (m.lookup k).getD false

/-- Build a map from a list of pairs by successive assignment. -/
def ofList {V : Type} (l : List (String × V)) : GoMap V :=
  l.foldl (fun m p => m.set p.1 p.2) empty

end GoMap

/-- A Go `map[string]string`, the record type of the list. -/
abbrev Record := GoMap String

/-- The dedup key of a record: the Go expression `e["Twitter"]`. -/
def username (e : Record) : String := e.get "Twitter"

/-! ## The heap of map objects -/

/-- The address of a map object. -/
abbrev Ref := Nat

/-- Every `map[string]string` object of the program, by address. -/
abbrev Heap := Ref → Record

/-- The struct `List` of `main.go` (named `EntryList` here, `List` being
taken): its field `Entries` is a slice of map references. -/
structure EntryList where
  Entries : List Ref

/-! ## The list merger: `mergeEntries` and `List.Update` -/

/-- The body of the `range from` loop of `mergeEntries`, over the pairs of
`from` still to visit.  While the loop runs, `from` is only ever assigned its
own values (when `into` and `from` are the same object), so the pairs visited
are those `from` held on entry. -/
def mergeLoop (into : Ref) : List (String × String) → Heap → Heap
  | [], h => h
  | (k, v) :: rest, h =>
    if k = "id" then mergeLoop into rest h
    else mergeLoop into rest (Function.update h into ((h into).set k v))

/-- Go `mergeEntries(into, from)`: copy every pair of `from` except `"id"`
into `into`, in place. -/
def mergeEntries (h : Heap) (into from_ : Ref) : Heap :=
  mergeLoop into (h from_).entries h

/-- The first loop of `List.Update`, over the entries from index `i` on: the
lookup `existingByUsername` and the indices `dupeIdxs` of repeated keys. -/
def indexLoop (h : Heap) : List Ref → Nat → GoMap Ref → List Nat → GoMap Ref × List Nat
  | [], _, existingByUsername, dupeIdxs => (existingByUsername, dupeIdxs)
  | e :: rest, i, existingByUsername, dupeIdxs =>
    let username := (h e).get "Twitter"
    match existingByUsername.lookup username with
    | some _ => indexLoop h rest (i + 1) existingByUsername (dupeIdxs ++ [i])
    | none => indexLoop h rest (i + 1) (existingByUsername.set username e) dupeIdxs

/-- The second loop of `List.Update`, over the incoming records still to
visit: merge into the existing entry, or stage as new. -/
def dataLoop (existingByUsername : GoMap Ref) : List Ref → Heap → List Ref → Heap × List Ref
  | [], h, newEntries => (h, newEntries)
  | e :: rest, h, newEntries =>
    match existingByUsername.lookup ((h e).get "Twitter") with
    | some existing => dataLoop existingByUsername rest (mergeEntries h existing e) newEntries
    | none => dataLoop existingByUsername rest h (newEntries ++ [e])

/-- What a call of `List.Update` leaves behind. -/
structure UpdateResult where
  /-- The heap after the call. -/
  heap : Heap
  /-- The receiver `*l` after the call. -/
  list : EntryList
  /-- The returned `error`; `none` is Go's `nil`. -/
  err : Option String

/-- Go `(l *List) Update(data)`. -/
def Update (h : Heap) (l : EntryList) (data : List Ref) : UpdateResult :=
  let existingByUsername := (indexLoop h l.Entries 0 GoMap.empty []).1
  let r := dataLoop existingByUsername data h []
  { heap := r.1, list := ⟨l.Entries ++ r.2⟩, err := none }

/-! ## Running `Update` on values

`main` decodes the list from a file and builds the batch from the response, so
every entry and every incoming record is a map object of its own. -/

/-- Heap holding the entries of `L` at addresses `0 .. len(L)-1` and the
records of `D` after them. -/
def allocHeap (L D : List Record) : Heap := fun r => (L ++ D).getD r GoMap.empty

/-- Addresses of the entries of `L` in `allocHeap L D`. -/
def listRefs (L : List Record) : List Ref := List.range L.length

/-- Addresses of the records of `D` in `allocHeap L D`. -/
def dataRefs (L D : List Record) : List Ref := (List.range D.length).map (fun j => L.length + j)

/-- The records a list holds, read off the heap. -/
def readEntries (h : Heap) (l : EntryList) : List Record := l.Entries.map h

/-- State after `l.Update(D)` on a list `l` holding `L`. -/
def updateOnce (L D : List Record) : UpdateResult :=
  Update (allocHeap L D) ⟨listRefs L⟩ (dataRefs L D)

/-- State after `l.Update(D)` followed by a second `l.Update(D)` with the same
batch. -/
def updateTwice (L D : List Record) : UpdateResult :=
  let r := updateOnce L D
  Update r.heap r.list (dataRefs L D)

/-- Entries of the list after `Update(L, D)`. -/
def updated (L D : List Record) : List Record :=
  let r := updateOnce L D
  readEntries r.heap r.list

/-- Entries of the list after `Update(Update(L, D), D)`. -/
def updatedTwice (L D : List Record) : List Record :=
  let r := updateTwice L D
  readEntries r.heap r.list

/-! ## The list merger when a map may be nil

An entry decoded from JSON `null` is the nil map.  Reading a nil map gives the
zero value, a `range` loop over it visits nothing, and assigning to it panics.
The definitions below are `mergeEntries` and `List.Update` again, over a heap
in which a map may be nil and with the panic as an outcome; where no map is
nil they do what the definitions above do. -/

/-- Every `map[string]string` of the program, by address; `none` is the nil
map. -/
abbrev NilHeap := Ref → Option Record

/-- The one-result index expression `m[k]` on a map that may be nil. -/
def readNil (m : Option Record) (k : String) : String :=
  match m with
  | none => ""
  | some r => r.get k

/-- The pairs a `range` loop visits on a map that may be nil. -/
def pairsNil (m : Option Record) : List (String × String) :=
  match m with
  | none => []
  | some r => r.entries

/-- The body of the `range from` loop of `mergeEntries` when `into` may be
nil: the assignment `into[k] = v` panics on the nil map. -/
def mergeLoopNil (into : Ref) : List (String × String) → NilHeap → Except String NilHeap
  | [], h => .ok h
  | (k, v) :: rest, h =>
    if k = "id" then mergeLoopNil into rest h
    else
      match h into with
      | none => .error "assignment to entry in nil map"
      | some m => mergeLoopNil into rest (Function.update h into (some (m.set k v)))

/-- Go `mergeEntries(into, from)` when either map may be nil. -/
def mergeEntriesNil (h : NilHeap) (into from_ : Ref) : Except String NilHeap :=
  mergeLoopNil into (pairsNil (h from_)) h

/-- The first loop of `List.Update` when an entry may be nil. -/
def indexLoopNil (h : NilHeap) :
    List Ref → Nat → GoMap Ref → List Nat → GoMap Ref × List Nat
  | [], _, existingByUsername, dupeIdxs => (existingByUsername, dupeIdxs)
  | e :: rest, i, existingByUsername, dupeIdxs =>
    let username := readNil (h e) "Twitter"
    match existingByUsername.lookup username with
    | some _ => indexLoopNil h rest (i + 1) existingByUsername (dupeIdxs ++ [i])
    | none => indexLoopNil h rest (i + 1) (existingByUsername.set username e) dupeIdxs

/-- The second loop of `List.Update` when a map may be nil: a panic in
`mergeEntries` ends the run. -/
def dataLoopNil (existingByUsername : GoMap Ref) :
    List Ref → NilHeap → List Ref → Except String (NilHeap × List Ref)
  | [], h, newEntries => .ok (h, newEntries)
  | e :: rest, h, newEntries =>
    match existingByUsername.lookup (readNil (h e) "Twitter") with
    | some existing =>
      match mergeEntriesNil h existing e with
      | .error msg => .error msg
      | .ok h' => dataLoopNil existingByUsername rest h' newEntries
    | none => dataLoopNil existingByUsername rest h (newEntries ++ [e])

/-- What a call of `List.Update` that returns leaves behind, when a map may
be nil. -/
structure UpdateResultNil where
  /-- The heap after the call. -/
  heap : NilHeap
  /-- The receiver `*l` after the call. -/
  list : EntryList
  /-- The returned `error`; `none` is Go's `nil`. -/
  err : Option String

/-- Go `(l *List) Update(data)` when a map may be nil: the call returns
(`ok`) or panics (`error`, with the message of the panic). -/
def UpdateNil (h : NilHeap) (l : EntryList) (data : List Ref) : Except String UpdateResultNil :=
  let existingByUsername := (indexLoopNil h l.Entries 0 GoMap.empty []).1
  match dataLoopNil existingByUsername data h [] with
  | .error msg => .error msg
  | .ok r => .ok { heap := r.1, list := ⟨l.Entries ++ r.2⟩, err := none }

/-- Heap holding the entries of `L`, some of them possibly nil, at addresses
`0 .. len(L)-1` and the records of `D` after them. -/
def allocNilHeap (L D : List (Option Record)) : NilHeap := fun r => (L ++ D).getD r none

/-- The call `l.Update(D)` on a list `l` holding `L`, when entries and records
may be nil. -/
def updateNil (L D : List (Option Record)) : Except String UpdateResultNil :=
  UpdateNil (allocNilHeap L D) ⟨List.range L.length⟩
    ((List.range D.length).map (fun j => L.length + j))

/-- The heap with every nil map read as the empty map. -/
def fill (h : NilHeap) : Heap := fun r => (h r).getD GoMap.empty

/-- The message of the panic that ended a run, if one did. -/
def panicOf {α : Type} (r : Except String α) : Option String :=
  match r with
  | .error msg => some msg
  | .ok _ => none

/-- The record `{"x":"1"}`, which has no `"Twitter"` key. -/
def x1 : Record := GoMap.ofList [("x", "1")]

/-! ## Notions used to state and prove the claims on the merger -/

/-- The lookup `existingByUsername` that `Update` builds for the entries `E`. -/
def existingOf (h : Heap) (E : List Ref) : GoMap Ref := (indexLoop h E 0 GoMap.empty []).1

/-- Value last written under key `k` by the incoming records `es` that the
predicate `hit` selects: the value of the last selected record holding `k`. -/
def written (hit : Ref → Bool) (h : Heap) (k : String) : List Ref → Option String
  | [] => none
  | e :: es => (written hit h k es).or (if hit e then (h e).lookup k else none)

/-- The lookup of the first call. -/
def existing1 (L D : List Record) : GoMap Ref := existingOf (allocHeap L D) (listRefs L)

/-- The incoming record `d` is new for `L`: no entry of `L` has its
`"Twitter"` value. -/
def isNew (L : List Record) (d : Record) : Bool :=
  L.all (fun e => decide (username e ≠ username d))

/-- The entries staged as new by the first call. -/
def newRefs (L D : List Record) : List Ref :=
  (dataRefs L D).filter (fun e => isNew L (allocHeap L D e))

/-- Value last written under key `k` by the records of a batch whose
`"Twitter"` value is `u`: the value of the last such record holding `k`. -/
def lastWritten (u k : String) : List Record → Option String
  | [] => none
  | d :: ds => (lastWritten u k ds).or (if username d = u then d.lookup k else none)

/-- Two records with the same keys and the same value under every key. -/
def sameFields (a b : Record) : Prop := ∀ k, a.lookup k = b.lookup k

/-- The lookup of the second call. -/
def existing2 (L D : List Record) : GoMap Ref :=
  existingOf (updateOnce L D).heap (updateOnce L D).list.Entries

/-! ## Sample records -/

/-- The entry `{"Twitter":"@a","id":"123"}`. -/
def entryA : Record := GoMap.ofList [("Twitter", "@a"), ("id", "123")]

/-- The incoming record `{"Twitter":"@a","Summary":"hi"}`. -/
def incomingA : Record := GoMap.ofList [("Twitter", "@a"), ("Summary", "hi")]

/-- The record `{"Twitter":"@a","id":"123","Summary":"hi"}`. -/
def mergedA : Record := GoMap.ofList [("Twitter", "@a"), ("id", "123"), ("Summary", "hi")]

/-- The record `{"Twitter":"@a"}`. -/
def onlyA : Record := GoMap.ofList [("Twitter", "@a")]

/-- The record `{"Twitter":"@b"}`. -/
def onlyB : Record := GoMap.ofList [("Twitter", "@b")]

/-- The record `{"Twitter":"@a","x":"0"}`. -/
def a0 : Record := GoMap.ofList [("Twitter", "@a"), ("x", "0")]

/-- The record `{"Twitter":"@a","x":"1"}`. -/
def a1 : Record := GoMap.ofList [("Twitter", "@a"), ("x", "1")]

/-- The record `{"Twitter":"@a","x":"2"}`. -/
def a2 : Record := GoMap.ofList [("Twitter", "@a"), ("x", "2")]

/-! ## Decoded JSON values and the Go standard library

`turdToString` calls `encoding/json` and `html/template`.  Both belong to the
Go standard library, not to this program; what follows states what they
compute on the values the program hands them. -/

/-- The text `encoding/json` writes for a `float64` begins with a digit or a
minus sign. -/
def isNumberText (s : String) : Bool :=
  match s.data with
  | [] => false
  | c :: _ => c == '-' || c.isDigit

/-- A Go `interface{}` as `encoding/json` decodes it: `nil`, `bool`,
`float64`, `string`, `[]interface{}` or `map[string]interface{}`.  A `float64`
is held as the text `encoding/json` writes for it; the fields of a map are held
in the order `encoding/json` writes them (ascending keys). -/
inductive Any where
  | null
  | bool (b : Bool)
  | num (text : String) (valid : isNumberText text = true)
  | str (s : String)
  | arr (elems : List Any)
  | obj (fields : List (String × Any))

/-- Lower-case hexadecimal digit. -/
def hexDigit (n : Nat) : Char := "0123456789abcdef".data.getD n '0'

/-- How `encoding/json` writes one character of a string (HTML escaping on,
as `json.Marshal` has it): backslash and double quote get a backslash, newline,
carriage return and tab their short escapes, the other control characters and
`<`, `>`, `&` a `\u00XX` escape, U+2028 and U+2029 a `\u202X` escape.  (Go
releases from 1.22 on also write backspace and form feed short; no statement
below depends on it.) -/
def jsonEscapeRune (c : Char) : String :=
  if c = '\\' then "\\\\"
  else if c = '"' then "\\\""
  else if c = '\n' then "\\n"
  else if c = '\r' then "\\r"
  else if c = '\t' then "\\t"
  else if c.toNat < 0x20 ∨ c = '<' ∨ c = '>' ∨ c = '&' then
    "\\u00" ++ String.mk [hexDigit (c.toNat / 16), hexDigit (c.toNat % 16)]
  else if c.toNat = 0x2028 then "\\u2028"
  else if c.toNat = 0x2029 then "\\u2029"
  else String.mk [c]

/-- A string as `encoding/json` writes it: in double quotes, escaped. -/
def jsonString (s : String) : String :=
  "\"" ++ String.join (s.data.map jsonEscapeRune) ++ "\""

mutual
/-- Go `json.Marshal(v)` on a decoded value, as a string.  It cannot fail on
such a value; the program drops the error result. -/
def jsonMarshal : Any → String
  | .null => "null"
  | .bool true => "true"
  | .bool false => "false"
  | .num text _ => text
  | .str s => jsonString s
  | .arr elems => "[" ++ marshalElems elems ++ "]"
  | .obj fields => "\x7b" ++ marshalFields fields ++ "\x7d"
/-- The elements of an array, comma separated. -/
def marshalElems : List Any → String
  | [] => ""
  | [v] => jsonMarshal v
  | v :: rest => jsonMarshal v ++ "," ++ marshalElems rest
/-- The fields of an object, comma separated. -/
def marshalFields : List (String × Any) → String
  | [] => ""
  | [(k, v)] => jsonString k ++ ":" ++ jsonMarshal v
  | (k, v) :: rest => jsonString k ++ ":" ++ jsonMarshal v ++ "," ++ marshalFields rest
end

/-- Entry of `htmlReplacementTable` of `html/template` for one character. -/
def htmlReplacement (c : Char) : String :=
  if c.toNat = 0 then String.mk [Char.ofNat 0xFFFD]
  else if c = '"' then "&#34;"
  else if c = '&' then "&amp;"
  else if c = '\'' then "&#39;"
  else if c = '+' then "&#43;"
  else if c = '<' then "&lt;"
  else if c = '>' then "&gt;"
  else String.mk [c]

/-- The escaper `html/template` applies to a plain string in element text
(`htmlEscaper`) and, last, to a quoted attribute value (`attrEscaper`). -/
def htmlEscaper (s : String) : String := String.join (s.data.map htmlReplacement)

/-- Simple case folding on the letters of `http`, `https` and `mailto`: the
ASCII capitals, and U+017F (long s), fold to the small letter. -/
def foldRune (c : Char) : Char :=
  if c.toNat = 0x17F then 's' else if c.isUpper then c.toLower else c

/-- Go `strings.EqualFold(s, t)` for `t` one of `http`, `https`, `mailto`. -/
def equalFold (s t : String) : Bool := s.data.map foldRune == t.data.map foldRune

/-- The text before the first `:` of `s`, if `s` has a `:`. -/
def cutColon : List Char → Option (List Char)
  | [] => none
  | c :: rest => if c = ':' then some [] else (cutColon rest).map (fun p => c :: p)

/-- The function `isSafeURL` of `html/template`: a URL with a scheme is safe
when the scheme is `http`, `https` or `mailto`. -/
def isSafeURL (s : String) : Bool :=
  match cutColon s.data with
  | some protocol =>
    if '/' ∈ protocol then true
    else equalFold (String.mk protocol) "http" || equalFold (String.mk protocol) "https"
      || equalFold (String.mk protocol) "mailto"
  | none => true

/-- The escaper `urlFilter` of `html/template`. -/
def urlFilter (s : String) : String := if isSafeURL s then s else "#ZgotmplZ"

/-- The bytes of the UTF-8 encoding of a character. -/
def utf8Bytes (c : Char) : List Nat :=
  let n := c.toNat
  if n < 0x80 then [n]
  else if n < 0x800 then [0xC0 + n / 64, 0x80 + n % 64]
  else if n < 0x10000 then [0xE0 + n / 4096, 0x80 + n / 64 % 64, 0x80 + n % 64]
  else [0xF0 + n / 262144, 0x80 + n / 4096 % 64, 0x80 + n / 64 % 64, 0x80 + n % 64]

/-- A byte as `%xx`. -/
def pctByte (b : Nat) : List Char := ['%', hexDigit (b / 16), hexDigit (b % 16)]

/-- Hexadecimal digit, either case. -/
def isHex (c : Char) : Bool :=
  c.isDigit || ('a'.toNat ≤ c.toNat && c.toNat ≤ 'f'.toNat)
    || ('A'.toNat ≤ c.toNat && c.toNat ≤ 'F'.toNat)

/-- Bytes that `processURLOnto` leaves alone when normalising: the reserved
and unreserved characters of RFC 3986 that it lists. -/
def urlKeeps (c : Char) : Bool :=
  c ∈ ['!', '#', '$', '&', '*', '+', ',', '/', ':', ';', '=', '?', '@', '[', ']',
    '-', '.', '_', '~'] || c.isAlphanum

/-- The function `processURLOnto` of `html/template` with `norm` set: a valid
`%xx` escape is kept, every other byte outside `urlKeeps` is percent-encoded. -/
def normalizeURL : List Char → List Char
  | [] => []
  | c :: rest =>
    if urlKeeps c then c :: normalizeURL rest
    else if c = '%' ∧ (match rest with
        | a :: b :: _ => isHex a && isHex b
        | _ => false) = true then c :: normalizeURL rest
    else (utf8Bytes c).flatMap pctByte ++ normalizeURL rest

/-- The escaper `urlNormalizer` of `html/template`. -/
def urlNormalizer (s : String) : String := String.mk (normalizeURL s.data)

/-- Executing the template `<a href="{{.URL}}">{{.Text}}</a>` of
`html/template` on the strings `Text` and `URL`.  `html/template` escapes every
action for its context: `{{.URL}}`, the start of a URL in a double-quoted
attribute, goes through `urlFilter`, `urlNormalizer` and `attrEscaper`;
`{{.Text}}`, element text, goes through `htmlEscaper`. -/
def linkTemplate (Text URL : String) : String :=
  "<a href=\"" ++ htmlEscaper (urlNormalizer (urlFilter URL)) ++ "\">" ++ htmlEscaper Text
    ++ "</a>"

/-! ## The rich-text flattener -/

/-- Go `ensureString`. -/
def ensureString (v : Any) : String :=
  match v with
  | .str s => s
  | _ => jsonMarshal v

/-- Go `turdToString`. -/
def turdToString (turd : Any) : String :=
  match turd with
  | .arr l =>
    match l with
    | [l0] => ensureString l0
    | [l0, l1] =>
      let text := ensureString l0
      match l1 with
      | .arr [link0] =>
        match link0 with
        | .arr [link0', link1'] =>
          if ensureString link0' ≠ "a" then jsonMarshal turd
          else
            let url := ensureString link1'
            linkTemplate text url
        | _ => jsonMarshal turd
      | _ => jsonMarshal turd
    | _ => jsonMarshal turd
  | _ => jsonMarshal turd

/-- Go `notionCrapToString`, the builder passed along. -/
def crapLoop : List Any → String → String
  | [], builder => builder
  | turd :: rest, builder => crapLoop rest (builder ++ turdToString turd)

/-- Go `notionCrapToString`. -/
def notionCrapToString (crap : List Any) : String := crapLoop crap ""

/-! ## The response extractor -/

/-- Go struct `SchemaField`. -/
structure SchemaField where
  Name : String
  Type_ : String

/-- Go struct `CollectionMetadataValue`. -/
structure CollectionMetadataValue where
  Schema : GoMap SchemaField

/-- Go struct `CollectionMetadata`. -/
structure CollectionMetadata where
  Role : String
  Value : CollectionMetadataValue

/-- Go struct `BlockValue`. -/
structure BlockValue where
  Type_ : String
  Alive : Bool
  Properties : GoMap (List Any)
  ParentID : String

/-- Go struct `Block`. -/
structure Block where
  Role : String
  Value : BlockValue

/-- Go struct `RecordMap`. -/
structure RecordMap where
  Block : GoMap Block
  Collection : GoMap CollectionMetadata

/-- Go struct `QueryResult`. -/
structure QueryResult where
  SizeHint : Int

/-- Go struct `QueryCollectionResponse`. -/
structure QueryCollectionResponse where
  Result : QueryResult
  RecordMap : RecordMap

/-- Go `renameField`. -/
def renameField (f : String) : String :=
  if f = "Summary/Reason for being on this list" then "Summary" else f

/-- Go `strings.HasPrefix(s, prefix)`. -/
def HasPrefix (s pre : String) : Bool := pre.data.isPrefixOf s.data

/-- The loop over `c.Value.Schema` inside the first loop of
`useableDataFromResponse`. -/
def schemaLoop : List (String × SchemaField) → GoMap String → GoMap String
  | [], fieldName => fieldName
  | (k, f) :: rest, fieldName => schemaLoop rest (fieldName.set k (renameField f.Name))

/-- The first loop of `useableDataFromResponse`, over
`resp.RecordMap.Collection`: the maps `collectionId` and `fieldName`. -/
def collectionLoop : List (String × CollectionMetadata) → GoMap Bool → GoMap String →
    GoMap Bool × GoMap String
  | [], collectionId, fieldName => (collectionId, fieldName)
  | (k, c) :: rest, collectionId, fieldName =>
    collectionLoop rest (collectionId.set k true) (schemaLoop c.Value.Schema.entries fieldName)

/-- The loop over `v.Properties` that fills `entry`. -/
def propertyLoop (fieldName : GoMap String) : List (String × List Any) → Record → Record
  | [], entry => entry
  | (k, p) :: rest, entry =>
    propertyLoop fieldName rest (entry.set (fieldName.get k) (notionCrapToString p))

/-- The record `entry` that `useableDataFromResponse` builds for a block. -/
def entryOf (fieldName : GoMap String) (b : Block) : Record :=
  propertyLoop fieldName b.Value.Properties.entries GoMap.empty

/-- The second loop of `useableDataFromResponse`, over
`resp.RecordMap.Block`. -/
def blockLoop (collectionId : GoMap Bool) (fieldName : GoMap String) :
    List (String × Block) → List Record → List Record
  | [], r => r
  | (_, b) :: rest, r =>
    let v := b.Value
    if v.Type_ ≠ "page" ∨ !collectionId.getBool v.ParentID then
      blockLoop collectionId fieldName rest r
    else
      let entry := entryOf fieldName b
      if HasPrefix (entry.get "Twitter") "@" then
        blockLoop collectionId fieldName rest (r ++ [entry])
      else blockLoop collectionId fieldName rest r

/-- Go `useableDataFromResponse`. -/
def useableDataFromResponse (resp : QueryCollectionResponse) : List Record :=
  let cf := collectionLoop resp.RecordMap.Collection.entries GoMap.empty GoMap.empty
  blockLoop cf.1 cf.2 resp.RecordMap.Block.entries []

/-! ## Notions used to state the claims on the extractor and the flattener -/

/-- The map `fieldName` that `useableDataFromResponse` builds. -/
def fieldNames (resp : QueryCollectionResponse) : GoMap String :=
  (collectionLoop resp.RecordMap.Collection.entries GoMap.empty GoMap.empty).2

/-- The inclusion filter in words: the block is a page, its parent is a key
of `recordMap.collection`, and the `"Twitter"` field of its record begins with
`@`. -/
def keeps (resp : QueryCollectionResponse) (b : Block) : Bool :=
  decide (b.Value.Type_ = "page")
    && decide (b.Value.ParentID ∈ resp.RecordMap.Collection.entries.map Prod.fst)
    && HasPrefix ((entryOf (fieldNames resp) b).get "Twitter") "@"

/-- The value is a `[]interface{}`. -/
def Any.isArray : Any → Bool
  | .arr _ => true
  | _ => false

/-- A property value holding the one plain span `[s]`. -/
def plain (s : String) : List Any := [.arr [.str s]]

/-- A block of the given type and parent with the one property `tw`. -/
def sampleBlock (type parent twitter : String) : Block :=
  ⟨"reader", ⟨type, true, GoMap.ofList [("tw", plain twitter)], parent⟩⟩

/-- A response with one collection `c1`, whose schema names the property `tw`
`Twitter`, and four blocks: a page with Twitter `@alice`, a page with Twitter
`alice`, a block of type `text` with Twitter `@bob`, and a page with Twitter
`@carol` whose parent is no collection. -/
def sampleResponse : QueryCollectionResponse :=
  ⟨⟨4⟩, ⟨GoMap.ofList [("b1", sampleBlock "page" "c1" "@alice"),
      ("b2", sampleBlock "page" "c1" "alice"), ("b3", sampleBlock "text" "c1" "@bob"),
      ("b4", sampleBlock "page" "c0" "@carol")],
    GoMap.ofList [("c1", ⟨"reader", ⟨GoMap.ofList [("tw", ⟨"Twitter", "text"⟩)]⟩⟩)]⟩⟩

/-- The span `["click", [[["a", "http://x"]]]]`, nested as the specification
writes it. -/
def clickSpan : Any := .arr [.str "click", .arr [.arr [.arr [.str "a", .str "http://x"]]]]

/-- The second element of a span marks an anchor: it is a one-element array
holding a two-element array whose first element is the string `"a"`. -/
def isAnchorMark : Any → Bool
  | .arr [.arr [.str s, _]] => decide (s = "a")
  | _ => false

/-- The span `["text", [["b"]]]`. -/
def textB : Any := .arr [.str "text", .arr [.arr [.str "b"]]]

/-- The property key `k` appears in the schema of no collection of the
response. -/
def unknownKey (resp : QueryCollectionResponse) (k : String) : Prop :=
  ∀ kc ∈ resp.RecordMap.Collection.entries, k ∉ kc.2.Value.Schema.entries.map Prod.fst

instance (resp : QueryCollectionResponse) (k : String) : Decidable (unknownKey resp k) := by
  unfold unknownKey
  exact inferInstance

/-- A page of collection `c1` whose one property, `zz` with value `@dave`, is
in no schema. -/
def strayBlock : Block :=
  ⟨"reader", ⟨"page", true, GoMap.ofList [("zz", plain "@dave")], "c1"⟩⟩

/-- A response with the collection `c1`, whose schema has the fields `tw`
(named `Twitter`) and `su` (named `Summary/Reason for being on this list`), a
page with both properties, and the page `strayBlock`. -/
def strayResponse : QueryCollectionResponse :=
  ⟨⟨2⟩, ⟨GoMap.ofList [("b1", ⟨"reader", ⟨"page", true,
        GoMap.ofList [("tw", plain "@alice"), ("su", plain "why")], "c1"⟩⟩),
      ("b2", strayBlock)],
    GoMap.ofList [("c1", ⟨"reader", ⟨GoMap.ofList [("tw", ⟨"Twitter", "text"⟩),
      ("su", ⟨"Summary/Reason for being on this list", "text"⟩)]⟩⟩)]⟩⟩

/-! ## Lemmas on Go maps -/

theorem lookupL_setL_same {V : Type} (k : String) (v : V) (l : List (String × V)) :
    lookupL k (setL k v l) = some v := by
  induction l with
  | nil => simp [setL, lookupL]
  | cons p t ih =>
    obtain ⟨k', v'⟩ := p
    by_cases h : k' = k
    · simp [setL, lookupL, h]
    · simp [setL, lookupL, h, ih]

theorem lookupL_setL_other {V : Type} (k k' : String) (v : V) (l : List (String × V))
    (hk : k' ≠ k) : lookupL k' (setL k v l) = lookupL k' l := by
  induction l with
  | nil =>
    have : ¬ k = k' := fun e => hk e.symm
    simp [setL, lookupL, this]
  | cons p t ih =>
    obtain ⟨k'', v'⟩ := p
    by_cases h : k'' = k
    · subst h
      have : ¬ k'' = k' := fun e => hk e.symm
      simp [setL, lookupL, this]
    · by_cases h2 : k'' = k'
      · subst h2; simp [setL, lookupL, h]
      · simp [setL, lookupL, h, h2, ih]

theorem lookupL_eq_none_iff {V : Type} (k : String) (l : List (String × V)) :
    lookupL k l = none ↔ k ∉ l.map Prod.fst := by
  induction l with
  | nil => simp [lookupL]
  | cons p t ih =>
    obtain ⟨k', v'⟩ := p
    by_cases h : k' = k
    · subst h; simp [lookupL]
    · have h' : ¬ k = k' := fun e => h e.symm
      simp only [lookupL, h, if_false, ih, List.map_cons, List.mem_cons, h', false_or]

theorem GoMap.ext_entries {V : Type} {a b : GoMap V} (h : a.entries = b.entries) : a = b := by
  cases a; cases b; cases h; rfl

theorem GoMap.lookup_empty {V : Type} (k : String) :
    (GoMap.empty : GoMap V).lookup k = none := rfl

theorem GoMap.lookup_set_same {V : Type} (m : GoMap V) (k : String) (v : V) :
    (m.set k v).lookup k = some v := lookupL_setL_same k v m.entries

theorem GoMap.lookup_set_other {V : Type} (m : GoMap V) (k k' : String) (v : V) (hk : k' ≠ k) :
    (m.set k v).lookup k' = m.lookup k' := lookupL_setL_other k k' v m.entries hk

theorem GoMap.lookup_set {V : Type} (m : GoMap V) (k k' : String) (v : V) :
    (m.set k v).lookup k' = if k' = k then some v else m.lookup k' := by
  by_cases h : k' = k
  · subst h; simp [GoMap.lookup_set_same]
  · simp [h, GoMap.lookup_set_other m k k' v h]

/-! ## Lemmas on `mergeEntries` -/

theorem lookupL_of_mem {V : Type} (k : String) (v : V) (l : List (String × V))
    (hl : (l.map Prod.fst).Nodup) (hm : (k, v) ∈ l) : lookupL k l = some v := by
  induction l with
  | nil => simp at hm
  | cons p t ih =>
    obtain ⟨k', v'⟩ := p
    rw [List.map_cons, List.nodup_cons] at hl
    rcases List.mem_cons.1 hm with h | h
    · cases h; simp [lookupL]
    · have hk : k ∈ t.map Prod.fst := List.mem_map.2 ⟨(k, v), h, rfl⟩
      have hne : ¬ k' = k := fun e => hl.1 (e ▸ hk)
      simp [lookupL, hne, ih hl.2 h]

theorem setL_of_lookupL {V : Type} (k : String) (v : V) (l : List (String × V))
    (h : lookupL k l = some v) : setL k v l = l := by
  induction l with
  | nil => simp [lookupL] at h
  | cons p t ih =>
    obtain ⟨k', v'⟩ := p
    by_cases hk : k' = k
    · simp only [lookupL, hk, if_true, Option.some.injEq] at h
      simp [setL, hk, h]
    · simp only [lookupL, hk, if_false] at h
      simp [setL, hk, ih h]

theorem GoMap.set_of_lookup {V : Type} (m : GoMap V) (k : String) (v : V)
    (h : m.lookup k = some v) : m.set k v = m :=
  GoMap.ext_entries (setL_of_lookupL k v m.entries h)

/-- The loop of `mergeEntries` touches no object but `into`. -/
theorem mergeLoop_other (into : Ref) (ps : List (String × String)) (h : Heap) (x : Ref)
    (hx : x ≠ into) : mergeLoop into ps h x = h x := by
  induction ps generalizing h with
  | nil => rfl
  | cons p t ih =>
    obtain ⟨k, v⟩ := p
    by_cases hk : k = "id"
    · simp [mergeLoop, hk, ih]
    · simp [mergeLoop, hk, ih, Function.update_noteq hx]

/-- What the loop of `mergeEntries` leaves in `into`, key by key. -/
theorem mergeLoop_lookup (into : Ref) (ps : List (String × String)) (h : Heap)
    (hps : (ps.map Prod.fst).Nodup) (k : String) :
    (mergeLoop into ps h into).lookup k =
      if k = "id" then (h into).lookup k else (lookupL k ps).or ((h into).lookup k) := by
  induction ps generalizing h with
  | nil => simp [mergeLoop, lookupL]
  | cons p t ih =>
    obtain ⟨k0, v0⟩ := p
    rw [List.map_cons, List.nodup_cons] at hps
    by_cases hk0 : k0 = "id"
    · subst hk0
      simp only [mergeLoop, if_true, ih h hps.2, lookupL]
      by_cases hk : k = "id"
      · simp [hk]
      · have : ¬ "id" = k := fun e => hk e.symm
        simp [hk, this]
    · simp only [mergeLoop, hk0, if_false, ih _ hps.2, Function.update_same, lookupL,
        GoMap.lookup_set]
      by_cases hk : k = "id"
      · have : ¬ k = k0 := fun e => hk0 (e ▸ hk)
        simp [hk, this]
        intro e; exact absurd e.symm hk0
      · by_cases hkk : k = k0
        · subst hkk
          have hn : lookupL k t = none := (lookupL_eq_none_iff k t).2 hps.1
          simp [hk, hn]
        · have : ¬ k0 = k := fun e => hkk e.symm
          simp [hk, hkk, this]

/-- A loop of `mergeEntries` that assigns an object pairs it already holds
changes nothing. -/
theorem mergeLoop_self (e : Ref) (ps : List (String × String)) (h : Heap)
    (hps : ∀ p ∈ ps, p ∈ (h e).entries) : mergeLoop e ps h = h := by
  induction ps with
  | nil => rfl
  | cons p t ih =>
    obtain ⟨k, v⟩ := p
    have ht : ∀ p ∈ t, p ∈ (h e).entries := fun p hp => hps p (List.mem_cons_of_mem _ hp)
    by_cases hk : k = "id"
    · simp [mergeLoop, hk, ih ht]
    · have hl : (h e).lookup k = some v :=
        lookupL_of_mem k v (h e).entries (h e).nodup (hps (k, v) (List.mem_cons_self _ _))
      simp [mergeLoop, hk, GoMap.set_of_lookup _ k v hl, ih ht]

theorem mergeEntries_other (h : Heap) (into from_ x : Ref) (hx : x ≠ into) :
    mergeEntries h into from_ x = h x := mergeLoop_other into _ h x hx

theorem mergeEntries_self (h : Heap) (e : Ref) : mergeEntries h e e = h :=
  mergeLoop_self e _ h (fun _ hp => hp)

theorem mergeEntries_lookup (h : Heap) (into from_ : Ref) (k : String) :
    (mergeEntries h into from_ into).lookup k =
      if k = "id" then (h into).lookup k
      else ((h from_).lookup k).or ((h into).lookup k) :=
  mergeLoop_lookup into _ h (h from_).nodup k

theorem mergeEntries_username (h : Heap) (into from_ : Ref)
    (hu : username (h into) = username (h from_)) (x : Ref) :
    username (mergeEntries h into from_ x) = username (h x) := by
  by_cases hx : x = into
  · subst hx
    have hl := mergeEntries_lookup h x from_ "Twitter"
    have hne : ¬ ("Twitter" = "id") := by decide
    rw [if_neg hne] at hl
    unfold username GoMap.get at hu ⊢
    rw [hl]
    cases hf : (h from_).lookup "Twitter" with
    | none => simp
    | some v => rw [hf] at hu; simp [hu]
  · rw [mergeEntries_other h into from_ x hx]

/-! ## The two loops of `Update` -/

/-- The lookup built by the first loop maps a key to the first entry that
carries it. -/
theorem indexLoop_lookup (h : Heap) (E : List Ref) (i : Nat) (m : GoMap Ref) (dups : List Nat)
    (u : String) :
    (indexLoop h E i m dups).1.lookup u =
      (m.lookup u).or (E.find? (fun e => decide (username (h e) = u))) := by
  induction E generalizing i m dups with
  | nil => simp [indexLoop]
  | cons e rest ih =>
    simp only [indexLoop]
    by_cases hu : username (h e) = u
    · cases hm : m.lookup ((h e).get "Twitter") with
      | some r0 =>
        have hm' : m.lookup u = some r0 := by rw [← hu]; exact hm
        simp [ih, hm']
      | none =>
        have hm' : m.lookup u = none := by rw [← hu]; exact hm
        have hs : (m.set ((h e).get "Twitter") e).lookup u = some e := by
          rw [← hu]; exact GoMap.lookup_set_same m _ e
        simp [ih, hm', hs, hu]
    · cases hm : m.lookup ((h e).get "Twitter") with
      | some r0 => simp [ih, hu]
      | none =>
        have hs : (m.set ((h e).get "Twitter") e).lookup u = m.lookup u :=
          GoMap.lookup_set_other m _ u e (fun e' => hu e'.symm)
        simp [ih, hs, hu]

theorem existingOf_lookup (h : Heap) (E : List Ref) (u : String) :
    (existingOf h E).lookup u = E.find? (fun e => decide (username (h e) = u)) := by
  simp [existingOf, indexLoop_lookup, GoMap.lookup_empty]

theorem existingOf_username (h : Heap) (E : List Ref) (u : String) (r : Ref)
    (hr : (existingOf h E).lookup u = some r) : username (h r) = u := by
  rw [existingOf_lookup] at hr
  simpa using List.find?_some hr

theorem existingOf_mem (h : Heap) (E : List Ref) (u : String) (r : Ref)
    (hr : (existingOf h E).lookup u = some r) : r ∈ E := by
  rw [existingOf_lookup] at hr
  exact List.mem_of_find?_eq_some hr

/-- The second loop never changes the key of any object, and stages exactly
the incoming records whose key the lookup does not hold. -/
theorem dataLoop_users (idx : GoMap Ref) (D : List Ref) (h : Heap) (new : List Ref)
    (hI : ∀ u r, idx.lookup u = some r → username (h r) = u) :
    (dataLoop idx D h new).2 =
        new ++ D.filter (fun e => (idx.lookup (username (h e))).isNone) ∧
      ∀ x, username ((dataLoop idx D h new).1 x) = username (h x) := by
  induction D generalizing h new with
  | nil => simp [dataLoop]
  | cons e es ih =>
    simp only [dataLoop]
    cases ht : idx.lookup ((h e).get "Twitter") with
    | some r =>
      have hu : ∀ x, username (mergeEntries h r e x) = username (h x) :=
        mergeEntries_username h r e (hI _ r ht)
      have hI' : ∀ u r', idx.lookup u = some r' → username (mergeEntries h r e r') = u :=
        fun u r' hr => by rw [hu]; exact hI u r' hr
      obtain ⟨h1, h2⟩ := ih (mergeEntries h r e) new hI'
      have ht' : idx.lookup (username (h e)) = some r := ht
      refine ⟨?_, fun x => by rw [h2, hu]⟩
      rw [h1, List.filter_cons]
      simp [ht', hu]
    | none =>
      obtain ⟨h1, h2⟩ := ih h (new ++ [e]) hI
      have ht' : idx.lookup (username (h e)) = none := ht
      refine ⟨?_, h2⟩
      rw [h1, List.filter_cons]
      simp [ht']

theorem written_congr (hit hit' : Ref → Bool) (h h' : Heap) (k : String) (es : List Ref)
    (hh : ∀ e ∈ es, hit e = hit' e ∧ h e = h' e) :
    written hit h k es = written hit' h' k es := by
  induction es with
  | nil => rfl
  | cons e es ih =>
    have he := hh e (List.mem_cons_self _ _)
    simp only [written, he.1, he.2]
    rw [ih (fun e' he' => hh e' (List.mem_cons_of_mem _ he'))]

theorem written_none (hit : Ref → Bool) (h : Heap) (k : String) (es : List Ref)
    (hh : ∀ e ∈ es, hit e = true → (h e).lookup k = none) : written hit h k es = none := by
  induction es with
  | nil => rfl
  | cons e es ih =>
    simp only [written, ih (fun e' he' => hh e' (List.mem_cons_of_mem _ he'))]
    cases hhit : hit e
    · simp
    · simp [hh e (List.mem_cons_self _ _) hhit]

/-- The second loop, when no incoming record is merged into another incoming
record: the incoming objects (the set `S`) are left as they are, and every
other object receives, key by key, the last value written to it. -/
theorem dataLoop_frame (idx : GoMap Ref) (S : Ref → Prop) (D : List Ref) (h : Heap)
    (new : List Ref)
    (hI : ∀ u r, idx.lookup u = some r → username (h r) = u)
    (hD : ∀ e ∈ D, S e)
    (hA : ∀ e ∈ D, ∀ r, idx.lookup (username (h e)) = some r → r = e ∨ ¬ S r) :
    (∀ x, S x → (dataLoop idx D h new).1 x = h x) ∧
      ∀ r, ¬ S r → ∀ k, ((dataLoop idx D h new).1 r).lookup k =
        if k = "id" then (h r).lookup k
        else (written (fun e => decide (idx.lookup (username (h e)) = some r)) h k D).or
          ((h r).lookup k) := by
  induction D generalizing h new with
  | nil => simp [dataLoop, written]
  | cons e es ih =>
    have hDes : ∀ e' ∈ es, S e' := fun e' he' => hD e' (List.mem_cons_of_mem _ he')
    simp only [dataLoop]
    cases ht : idx.lookup ((h e).get "Twitter") with
    | some r =>
      have ht' : idx.lookup (username (h e)) = some r := ht
      have hu : ∀ x, username (mergeEntries h r e x) = username (h x) :=
        mergeEntries_username h r e (hI _ r ht)
      have hS : ∀ x, S x → mergeEntries h r e x = h x := by
        intro x hx
        rcases hA e (List.mem_cons_self _ _) r ht' with hre | hre
        · rw [hre, mergeEntries_self]
        · exact mergeEntries_other h r e x (fun e' => hre (e' ▸ hx))
      have hI' : ∀ u r', idx.lookup u = some r' → username (mergeEntries h r e r') = u :=
        fun u r' hr => by rw [hu]; exact hI u r' hr
      have hA' : ∀ e' ∈ es, ∀ r', idx.lookup (username (mergeEntries h r e e')) = some r' →
          r' = e' ∨ ¬ S r' := by
        intro e' he' r' hr'
        rw [hu] at hr'
        exact hA e' (List.mem_cons_of_mem _ he') r' hr'
      obtain ⟨h1, h2⟩ := ih (mergeEntries h r e) new hI' hDes hA'
      refine ⟨fun x hx => by rw [h1 x hx, hS x hx], ?_⟩
      intro r' hr' k
      rw [h2 r' hr' k]
      have hw : written (fun e' => decide (idx.lookup (username (mergeEntries h r e e')) = some r'))
            (mergeEntries h r e) k es
          = written (fun e' => decide (idx.lookup (username (h e')) = some r')) h k es :=
        written_congr _ _ _ _ k es (fun e' he' => ⟨by simp [hu], hS e' (hDes e' he')⟩)
      rw [hw]
      by_cases hk : k = "id"
      · simp only [hk, if_true]
        by_cases hrr : r' = r
        · subst hrr; rw [mergeEntries_lookup]; simp
        · rw [mergeEntries_other h r e r' hrr]
      · simp only [hk, if_false, written, ht']
        by_cases hrr : r' = r
        · subst hrr
          rw [mergeEntries_lookup]
          simp [hk, Option.or_assoc]
        · have hne : ¬ (some r = some r') := fun e' => hrr (Option.some.inj e').symm
          rw [mergeEntries_other h r e r' hrr]
          simp [hne]
    | none =>
      have ht' : idx.lookup (username (h e)) = none := ht
      have hA' : ∀ e' ∈ es, ∀ r', idx.lookup (username (h e')) = some r' → r' = e' ∨ ¬ S r' :=
        fun e' he' => hA e' (List.mem_cons_of_mem _ he')
      obtain ⟨h1, h2⟩ := ih h (new ++ [e]) hI hDes hA'
      refine ⟨h1, ?_⟩
      intro r' hr' k
      rw [h2 r' hr' k]
      simp [written, ht']

/-! ## One call of `Update` on a list `L` and a batch `D` -/

theorem allocHeap_list (L D : List Record) (i : Nat) (hi : i < L.length) :
    allocHeap L D i = L[i] := by
  unfold allocHeap
  rw [List.getD_append L D _ i hi, List.getD_eq_getElem L _ hi]

theorem allocHeap_data (L D : List Record) (j : Nat) (hj : j < D.length) :
    allocHeap L D (L.length + j) = D[j] := by
  unfold allocHeap
  rw [List.getD_append_right L D _ _ (Nat.le_add_right _ _), Nat.add_sub_cancel_left,
    List.getD_eq_getElem D _ hj]

theorem map_allocHeap_listRefs (L D : List Record) : (listRefs L).map (allocHeap L D) = L := by
  apply List.ext_getElem
  · simp [listRefs]
  · intro n h1 h2
    simp only [listRefs, List.getElem_map, List.getElem_range]
    exact allocHeap_list L D n h2

theorem map_allocHeap_dataRefs (L D : List Record) : (dataRefs L D).map (allocHeap L D) = D := by
  apply List.ext_getElem
  · simp [dataRefs]
  · intro n h1 h2
    simp only [dataRefs, List.getElem_map, List.getElem_range]
    exact allocHeap_data L D n h2

theorem mem_listRefs (L : List Record) (x : Ref) : x ∈ listRefs L ↔ x < L.length := by
  simp [listRefs]

theorem mem_dataRefs_ge (L D : List Record) (x : Ref) (hx : x ∈ dataRefs L D) :
    L.length ≤ x := by
  simp only [dataRefs, List.mem_map, List.mem_range] at hx
  obtain ⟨j, _, rfl⟩ := hx
  exact Nat.le_add_right _ _

theorem existing1_lt (L D : List Record) (u : String) (r : Ref)
    (hr : (existing1 L D).lookup u = some r) : r < L.length :=
  (mem_listRefs L r).1 (existingOf_mem _ _ u r hr)

theorem existing1_eq_none (L D : List Record) (u : String) :
    (existing1 L D).lookup u = none ↔ ∀ e ∈ L, username e ≠ u := by
  unfold existing1
  rw [existingOf_lookup, List.find?_eq_none]
  constructor
  · intro hx e he
    obtain ⟨i, hi, rfl⟩ := List.getElem_of_mem he
    have := hx i ((mem_listRefs L i).2 hi)
    rw [allocHeap_list L D i hi] at this
    simpa using this
  · intro hx i hi
    have hi' := (mem_listRefs L i).1 hi
    rw [allocHeap_list L D i hi']
    simpa using hx _ (List.getElem_mem hi')

theorem existing1_isNone (L D : List Record) (d : Record) :
    ((existing1 L D).lookup (username d)).isNone = isNew L d := by
  rw [Bool.eq_iff_iff, Option.isNone_iff_eq_none, existing1_eq_none]
  simp [isNew]

theorem updateOnce_heap (L D : List Record) :
    (updateOnce L D).heap = (dataLoop (existing1 L D) (dataRefs L D) (allocHeap L D) []).1 := rfl

theorem updateOnce_entries (L D : List Record) :
    (updateOnce L D).list.Entries =
      listRefs L ++ (dataLoop (existing1 L D) (dataRefs L D) (allocHeap L D) []).2 := rfl

/-- The first call changes no `"Twitter"` value. -/
theorem updateOnce_username (L D : List Record) (x : Ref) :
    username ((updateOnce L D).heap x) = username (allocHeap L D x) :=
  (dataLoop_users (existing1 L D) (dataRefs L D) (allocHeap L D) []
    (existingOf_username _ _)).2 x

theorem updateOnce_entries_eq (L D : List Record) :
    (updateOnce L D).list.Entries = listRefs L ++ newRefs L D := by
  rw [updateOnce_entries,
    (dataLoop_users (existing1 L D) (dataRefs L D) (allocHeap L D) []
      (existingOf_username _ _)).1]
  simp [newRefs, existing1_isNone]

theorem updateOnce_frame (L D : List Record) :
    (∀ x, L.length ≤ x → (updateOnce L D).heap x = allocHeap L D x) ∧
      ∀ r, ¬ L.length ≤ r → ∀ k, ((updateOnce L D).heap r).lookup k =
        if k = "id" then (allocHeap L D r).lookup k
        else (written (fun e => decide ((existing1 L D).lookup (username (allocHeap L D e))
            = some r)) (allocHeap L D) k (dataRefs L D)).or ((allocHeap L D r).lookup k) :=
  dataLoop_frame (existing1 L D) (fun x => L.length ≤ x) (dataRefs L D) (allocHeap L D) []
    (existingOf_username _ _) (mem_dataRefs_ge L D)
    (fun _ _ r hr => Or.inr (Nat.not_le.2 (existing1_lt L D _ r hr)))

theorem map_allocHeap_newRefs (L D : List Record) :
    (newRefs L D).map (allocHeap L D) = D.filter (isNew L) := by
  have h := List.filter_map (p := isNew L) (allocHeap L D) (dataRefs L D)
  rw [map_allocHeap_dataRefs] at h
  rw [h]
  rfl

theorem mem_newRefs_ge (L D : List Record) (x : Ref) (hx : x ∈ newRefs L D) : L.length ≤ x :=
  mem_dataRefs_ge L D x (List.mem_of_mem_filter hx)

/-- The list after one call: the old entries, as the call left them, followed
by the new records of the batch. -/
theorem updated_eq (L D : List Record) :
    updated L D = (listRefs L).map (updateOnce L D).heap ++ D.filter (isNew L) := by
  unfold updated readEntries
  simp only []
  rw [updateOnce_entries_eq, List.map_append]
  congr 1
  rw [← map_allocHeap_newRefs]
  apply List.map_congr_left
  intro x hx
  exact (updateOnce_frame L D).1 x (mem_newRefs_ge L D x hx)

theorem length_old (L D : List Record) :
    ((listRefs L).map (updateOnce L D).heap).length = L.length := by
  simp [listRefs]

theorem written_eq_lastWritten (hit : Ref → Bool) (h : Heap) (u k : String) (Rs : List Ref)
    (hh : ∀ e ∈ Rs, hit e = decide (username (h e) = u)) :
    written hit h k Rs = lastWritten u k (Rs.map h) := by
  induction Rs with
  | nil => rfl
  | cons e es ih =>
    simp only [written, List.map_cons, lastWritten, hh e (List.mem_cons_self _ _),
      ih (fun e' he' => hh e' (List.mem_cons_of_mem _ he')), decide_eq_true_eq]

theorem lastWritten_none (u k : String) (D : List Record)
    (hD : ∀ d ∈ D, username d = u → d.lookup k = none) : lastWritten u k D = none := by
  induction D with
  | nil => rfl
  | cons d ds ih =>
    simp only [lastWritten, ih (fun d' hd' => hD d' (List.mem_cons_of_mem _ hd'))]
    by_cases hu : username d = u
    · simp [hu, hD d (List.mem_cons_self _ _) hu]
    · simp [hu]

theorem lastWritten_last (u k v : String) (pre post : List Record) (d : Record)
    (hu : username d = u) (hv : d.lookup k = some v)
    (hpost : ∀ d' ∈ post, username d' = u → d'.lookup k = none) :
    lastWritten u k (pre ++ d :: post) = some v := by
  induction pre with
  | nil => simp [lastWritten, lastWritten_none u k post hpost, hu, hv]
  | cons p ps ih => simp [lastWritten, ih]

theorem range_split_lt (n j : Nat) (as bs : List Nat) (h : List.range n = as ++ j :: bs) :
    ∀ x ∈ bs, j < x := by
  have hp := List.pairwise_lt_range n
  rw [h, List.pairwise_append] at hp
  exact fun x hx => (List.pairwise_cons.1 hp.2.1).1 x hx

/-- The lookup of the first call sends a key to the first entry of `L` that
carries it. -/
theorem existing1_first (L D : List Record) (i : Nat) (e : Record) (hi : L[i]? = some e)
    (hfirst : ∀ e' ∈ L.take i, username e' ≠ username e) (u : String) :
    (existing1 L D).lookup u = some i ↔ u = username e := by
  obtain ⟨hlt, hget⟩ := List.getElem?_eq_some.1 hi
  have hh : allocHeap L D i = e := by rw [allocHeap_list L D i hlt, hget]
  constructor
  · intro h
    have := existingOf_username _ _ u i h
    rw [hh] at this
    exact this.symm
  · intro hu
    cases hl : (existing1 L D).lookup u with
    | none =>
      exact absurd hu.symm ((existing1_eq_none L D u).1 hl e (hget ▸ List.getElem_mem hlt))
    | some j =>
      have hju : username (allocHeap L D j) = u := existingOf_username _ _ u j hl
      have hjlt : j < L.length := existing1_lt L D u j hl
      unfold existing1 at hl
      rw [existingOf_lookup, List.find?_eq_some] at hl
      obtain ⟨_, as, bs, hsplit, has⟩ := hl
      have hmem : i ∈ as ++ j :: bs := by
        have : i ∈ listRefs L := (mem_listRefs L i).2 hlt
        rwa [hsplit] at this
      rcases List.mem_append.1 hmem with h1 | h1
      · have := has i h1
        simp [hh, hu] at this
      · rcases List.mem_cons.1 h1 with h2 | h2
        · rw [h2]
        · have hji : j < i := range_split_lt L.length j as bs hsplit i h2
          have hmemj : L[j] ∈ L.take i := by
            rw [List.mem_take_iff_getElem]
            exact ⟨j, by rw [Nat.lt_min]; exact ⟨hji, hjlt⟩, rfl⟩
          have := hfirst _ hmemj
          rw [← allocHeap_list L D j hjlt, hju, hu] at this
          exact absurd rfl this

/-- An old entry after the first call is the object at its own address. -/
theorem updated_old (L D : List Record) (i : Nat) (hi : i < L.length) :
    (updated L D)[i]? = some ((updateOnce L D).heap i) := by
  rw [updated_eq, List.getElem?_append_left (by rw [length_old]; exact hi), List.getElem?_map]
  simp [listRefs, List.getElem?_range hi]

/-- Fields of an old entry after the first call. -/
theorem updateOnce_old_lookup (L D : List Record) (i : Nat) (e : Record) (hi : L[i]? = some e)
    (k : String) :
    ((updateOnce L D).heap i).lookup k =
      if k = "id" then e.lookup k
      else (written (fun x => decide ((existing1 L D).lookup (username (allocHeap L D x))
          = some i)) (allocHeap L D) k (dataRefs L D)).or (e.lookup k) := by
  obtain ⟨hlt, hget⟩ := List.getElem?_eq_some.1 hi
  have hh : allocHeap L D i = e := by rw [allocHeap_list L D i hlt, hget]
  rw [(updateOnce_frame L D).2 i (Nat.not_le.2 hlt) k, hh]

/-- Fields of the first entry with a given `"Twitter"` value after the first
call. -/
theorem updateOnce_first_lookup (L D : List Record) (i : Nat) (e : Record) (hi : L[i]? = some e)
    (hfirst : ∀ e' ∈ L.take i, username e' ≠ username e) (k : String) :
    ((updateOnce L D).heap i).lookup k =
      if k = "id" then e.lookup k
      else (lastWritten (username e) k D).or (e.lookup k) := by
  rw [updateOnce_old_lookup L D i e hi k,
    written_eq_lastWritten _ (allocHeap L D) (username e) k (dataRefs L D)
      (fun x _ => by
        rw [Bool.eq_iff_iff]
        simp only [decide_eq_true_eq]
        rw [existing1_first L D i e hi hfirst]),
    map_allocHeap_dataRefs]

theorem map_username_old (L D : List Record) :
    ((listRefs L).map (updateOnce L D).heap).map username = L.map username := by
  rw [List.map_map]
  conv_rhs => rw [← map_allocHeap_listRefs L D, List.map_map]
  apply List.map_congr_left
  intro x _
  exact updateOnce_username L D x

/-! ## A second call of `Update` with the same batch -/

theorem updateTwice_heap (L D : List Record) :
    (updateTwice L D).heap =
      (dataLoop (existing2 L D) (dataRefs L D) (updateOnce L D).heap []).1 := rfl

theorem updateTwice_entries (L D : List Record) :
    (updateTwice L D).list.Entries = (updateOnce L D).list.Entries ++
      (dataLoop (existing2 L D) (dataRefs L D) (updateOnce L D).heap []).2 := rfl

theorem existing2_lookup (L D : List Record) (u : String) :
    (existing2 L D).lookup u = ((existing1 L D).lookup u).or
      ((newRefs L D).find? (fun e => decide (username (allocHeap L D e) = u))) := by
  have hf : (fun e => decide (username ((updateOnce L D).heap e) = u))
      = (fun e => decide (username (allocHeap L D e) = u)) := by
    funext e; rw [updateOnce_username]
  unfold existing2 existing1
  rw [existingOf_lookup, existingOf_lookup, updateOnce_entries_eq, List.find?_append, hf]

theorem existing2_old (L D : List Record) (u : String) (r : Ref) (hr : r < L.length) :
    (existing2 L D).lookup u = some r ↔ (existing1 L D).lookup u = some r := by
  rw [existing2_lookup]
  cases h1 : (existing1 L D).lookup u with
  | some r' => simp
  | none =>
    simp only [Option.none_or]
    constructor
    · intro h
      exact absurd hr (Nat.not_lt.2 (mem_newRefs_ge L D r (List.mem_of_find?_eq_some h)))
    · intro h; cases h

theorem mem_newRefs (L D : List Record) (e : Ref) :
    e ∈ newRefs L D ↔ e ∈ dataRefs L D ∧
      (existing1 L D).lookup (username (allocHeap L D e)) = none := by
  unfold newRefs
  rw [List.mem_filter, ← existing1_isNone L D, Option.isNone_iff_eq_none]

theorem existing2_data_isSome (L D : List Record) (e : Ref) (he : e ∈ dataRefs L D) :
    (existing2 L D).lookup (username (allocHeap L D e)) ≠ none := by
  rw [existing2_lookup]
  cases h1 : (existing1 L D).lookup (username (allocHeap L D e)) with
  | some r' => simp
  | none =>
    simp only [Option.none_or]
    intro hn
    rw [List.find?_eq_none] at hn
    have := hn e ((mem_newRefs L D e).2 ⟨he, h1⟩)
    simp at this

theorem existing2_username (L D : List Record) (u : String) (r : Ref)
    (hr : (existing2 L D).lookup u = some r) : username ((updateOnce L D).heap r) = u :=
  existingOf_username _ _ u r hr

/-- The second call with the same batch stages no new entry. -/
theorem updateTwice_entries_eq (L D : List Record) :
    (updateTwice L D).list.Entries = listRefs L ++ newRefs L D := by
  rw [updateTwice_entries,
    (dataLoop_users (existing2 L D) (dataRefs L D) (updateOnce L D).heap []
      (existing2_username L D)).1, updateOnce_entries_eq]
  have : (dataRefs L D).filter
      (fun e => ((existing2 L D).lookup (username ((updateOnce L D).heap e))).isNone) = [] := by
    rw [List.filter_eq_nil_iff]
    intro e he
    rw [updateOnce_username, Option.isNone_iff_eq_none]
    exact existing2_data_isSome L D e he
  rw [this]
  simp

/-- When the new records of the batch have pairwise distinct `"Twitter"`
values, the second call merges an incoming record either into an old entry or
into itself. -/
theorem existing2_target (L D : List Record)
    (hN : ((D.filter (isNew L)).map username).Nodup) (e : Ref) (he : e ∈ dataRefs L D)
    (r : Ref) (hr : (existing2 L D).lookup (username ((updateOnce L D).heap e)) = some r) :
    r = e ∨ ¬ L.length ≤ r := by
  rw [updateOnce_username, existing2_lookup] at hr
  cases h1 : (existing1 L D).lookup (username (allocHeap L D e)) with
  | some r' =>
    rw [h1] at hr
    simp only [Option.or_some, Option.some.injEq] at hr
    exact Or.inr (Nat.not_le.2 (hr ▸ existing1_lt L D _ r' h1))
  | none =>
    rw [h1, Option.none_or] at hr
    left
    have hrmem : r ∈ newRefs L D := List.mem_of_find?_eq_some hr
    have hemem : e ∈ newRefs L D := (mem_newRefs L D e).2 ⟨he, h1⟩
    have hru : username (allocHeap L D r) = username (allocHeap L D e) := by
      simpa using List.find?_some hr
    have hN' : ((newRefs L D).map (fun x => username (allocHeap L D x))).Nodup := by
      have : (newRefs L D).map (fun x => username (allocHeap L D x))
          = ((newRefs L D).map (allocHeap L D)).map username := by
        rw [List.map_map]; rfl
      rw [this, map_allocHeap_newRefs]
      exact hN
    exact List.inj_on_of_nodup_map hN' hrmem hemem hru

theorem updateTwice_frame (L D : List Record)
    (hN : ((D.filter (isNew L)).map username).Nodup) :
    (∀ x, L.length ≤ x → (updateTwice L D).heap x = (updateOnce L D).heap x) ∧
      ∀ r, ¬ L.length ≤ r → ∀ k, ((updateTwice L D).heap r).lookup k =
        if k = "id" then ((updateOnce L D).heap r).lookup k
        else (written (fun e => decide ((existing2 L D).lookup
            (username ((updateOnce L D).heap e)) = some r)) (updateOnce L D).heap k
            (dataRefs L D)).or (((updateOnce L D).heap r).lookup k) :=
  dataLoop_frame (existing2 L D) (fun x => L.length ≤ x) (dataRefs L D) (updateOnce L D).heap []
    (existing2_username L D) (mem_dataRefs_ge L D) (existing2_target L D hN)

/-- Under the same condition the second call leaves every field of every
object as the first call left it. -/
theorem updateTwice_sameFields (L D : List Record)
    (hN : ((D.filter (isNew L)).map username).Nodup) (x : Ref) :
    sameFields ((updateTwice L D).heap x) ((updateOnce L D).heap x) := by
  intro k
  by_cases hx : L.length ≤ x
  · rw [(updateTwice_frame L D hN).1 x hx]
  · rw [(updateTwice_frame L D hN).2 x hx k]
    by_cases hk : k = "id"
    · simp [hk]
    · simp only [hk, if_false]
      have hw : written (fun e => decide ((existing2 L D).lookup
            (username ((updateOnce L D).heap e)) = some x)) (updateOnce L D).heap k
            (dataRefs L D)
          = written (fun e => decide ((existing1 L D).lookup (username (allocHeap L D e))
            = some x)) (allocHeap L D) k (dataRefs L D) := by
        apply written_congr
        intro e he
        refine ⟨?_, (updateOnce_frame L D).1 e (mem_dataRefs_ge L D e he)⟩
        rw [Bool.eq_iff_iff]
        simp only [decide_eq_true_eq]
        rw [updateOnce_username, existing2_old L D _ x (Nat.not_le.1 hx)]
      rw [hw, (updateOnce_frame L D).2 x hx k]
      simp only [hk, if_false]
      cases written (fun e => decide ((existing1 L D).lookup (username (allocHeap L D e))
            = some x)) (allocHeap L D) k (dataRefs L D) <;> simp

theorem updatedTwice_eq (L D : List Record) :
    updatedTwice L D = (listRefs L ++ newRefs L D).map (updateTwice L D).heap := by
  unfold updatedTwice readEntries
  simp only []
  rw [updateTwice_entries_eq]

theorem updated_eq_map (L D : List Record) :
    updated L D = (listRefs L ++ newRefs L D).map (updateOnce L D).heap := by
  unfold updated readEntries
  simp only []
  rw [updateOnce_entries_eq]

theorem sameFields_getElem? (A B : List Record) (h : List.Forall₂ sameFields A B) (i : Nat)
    (k : String) : (A[i]?).map (fun e => e.lookup k) = (B[i]?).map (fun e => e.lookup k) := by
  induction h generalizing i with
  | nil => rfl
  | cons hab _ ih =>
    cases i with
    | zero => simp [hab k]
    | succ n => simpa using ih n

/-! ## The claims on the list merger -/

/-- C1, as stated, fails: on the empty list and the batch
`[{"Twitter":"@a","x":"1"}, {"Twitter":"@a","x":"2"}]` the first call appends
both records, and the second call merges the second record into the first, so
entry 0 holds `x = 1` after one call and `x = 2` after two. -/
theorem c1_idempotence_fails :
    ¬ List.Forall₂ sameFields (updatedTwice [] [a1, a2]) (updated [] [a1, a2]) := by
  intro h
  have h0 := sameFields_getElem? _ _ h 0 "x"
  revert h0
  decide

/-- C1, amended: when the records of the batch `D` that match no entry of `L`
have pairwise distinct `"Twitter"` values, applying `Update` with `D` to the
result of `Update(L, D)` yields the same entries as `Update(L, D)`: the same
number of entries, in the same order, each with the same keys and values. -/
theorem c1_idempotence (L D : List Record)
    (hN : ((D.filter (isNew L)).map username).Nodup) :
    List.Forall₂ sameFields (updatedTwice L D) (updated L D) := by
  rw [updatedTwice_eq, updated_eq_map, List.forall₂_map_left_iff, List.forall₂_map_right_iff,
    List.forall₂_same]
  exact fun x _ => updateTwice_sameFields L D hN x

/-- C1, amended, at the list `[{"Twitter":"@a","x":"0"}]` and the batch
`[{"Twitter":"@a","x":"1"}, {"Twitter":"@b"}, {"Twitter":"@a","x":"2"}]`. -/
theorem c1_idempotence_witness :
    (([a1, onlyB, a2].filter (isNew [a0])).map username).Nodup ∧
      List.Forall₂ sameFields (updatedTwice [a0] [a1, onlyB, a2])
        (updated [a0] [a1, onlyB, a2]) :=
  ⟨by decide, c1_idempotence [a0] [a1, onlyB, a2] (by decide)⟩

/-- C2, as stated, fails: the empty list has no duplicate, and after merging
the batch `[{"Twitter":"@a","x":"1"}, {"Twitter":"@a","x":"2"}]` the list holds
two records with `"Twitter"` value `@a`. -/
theorem c2_distinct_fails :
    (([] : List Record).map username).Nodup ∧
      ¬ ((updated [] [a1, a2]).map username).Nodup := by
  decide

/-- C2, amended: for every list `L` whose entries have pairwise distinct
`"Twitter"` values and every batch `D` whose records matching no entry of `L`
have pairwise distinct `"Twitter"` values, the entries of `Update(L, D)` have
pairwise distinct `"Twitter"` values. -/
theorem c2_distinct (L D : List Record) (hL : (L.map username).Nodup)
    (hN : ((D.filter (isNew L)).map username).Nodup) :
    ((updated L D).map username).Nodup := by
  rw [updated_eq, List.map_append, map_username_old, List.nodup_append]
  refine ⟨hL, hN, ?_⟩
  intro u huL huD
  obtain ⟨d, hd, rfl⟩ := List.mem_map.1 huD
  obtain ⟨e, he, heu⟩ := List.mem_map.1 huL
  have hnew : isNew L d = true := (List.mem_filter.1 hd).2
  unfold isNew at hnew
  rw [List.all_eq_true] at hnew
  have := hnew e he
  simp [heu] at this

/-- C2, amended, at the list `[{"Twitter":"@a","x":"0"}]` and the batch
`[{"Twitter":"@a","x":"1"}, {"Twitter":"@b"}]`. -/
theorem c2_distinct_witness :
    ([a0].map username).Nodup ∧ (([a1, onlyB].filter (isNew [a0])).map username).Nodup ∧
      ((updated [a0] [a1, onlyB]).map username).Nodup :=
  ⟨by decide, by decide, c2_distinct [a0] [a1, onlyB] (by decide) (by decide)⟩

/-- C3: a merge never overwrites `"id"`.  For every list `L`, batch `D` and
position `i < len(L)`, looking up `"id"` in entry `i` of `Update(L, D)` gives
what it gives in entry `i` of `L` (the same value, or absent), whatever the
records of `D` carry.  And `{"Twitter":"@a","id":"123"}` merged with
`{"Twitter":"@a","Summary":"hi"}` yields
`{"Twitter":"@a","id":"123","Summary":"hi"}`. -/
theorem c3_id_preserved :
    (∀ (L D : List Record) (i : Nat), i < L.length →
        ((updated L D)[i]?).map (fun e => e.lookup "id")
          = (L[i]?).map (fun e => e.lookup "id")) ∧
      updated [entryA] [incomingA] = [mergedA] := by
  refine ⟨?_, by decide⟩
  intro L D i hi
  rw [updated_old L D i hi, List.getElem?_eq_getElem hi]
  simp only [Option.map_some']
  rw [updateOnce_old_lookup L D i L[i] (List.getElem?_eq_getElem hi) "id"]
  simp

/-- C3 at the list `[{"Twitter":"@a"}]`, the batch
`[{"Twitter":"@a","id":"123"}]` and position 0: the entry has no `"id"` before
the merge and none after it. -/
theorem c3_id_preserved_witness :
    0 < [onlyA].length ∧
      ((updated [onlyA] [entryA])[0]?).map (fun e => e.lookup "id") = some none :=
  ⟨by decide, c3_id_preserved.1 [onlyA] [entryA] 0 (by decide)⟩

/-- C4: new entries append after the existing ones.  For every list `L` and
batch `D`, the first `len(L)` entries of `Update(L, D)` carry, position by
position, the `"Twitter"` values of the entries of `L`, and the entries after
them are exactly the records of `D` whose `"Twitter"` value is that of no entry
of `L`, in their order in `D`.  And
`Update([{Twitter:"@a"}], [{Twitter:"@b"}]) = [{Twitter:"@a"}, {Twitter:"@b"}]`. -/
theorem c4_append_new :
    (∀ L D : List Record,
        ((updated L D).take L.length).map username = L.map username ∧
        (updated L D).drop L.length = D.filter (isNew L)) ∧
      updated [onlyA] [onlyB] = [onlyA, onlyB] := by
  constructor
  · intro L D
    rw [updated_eq, List.take_left' (length_old L D), List.drop_left' (length_old L D)]
    exact ⟨map_username_old L D, rfl⟩
  · decide

/-- C5: a merge overwrites every field except `"id"`.  Let `e` be entry `i`
of `L` and `k` a key other than `"id"`.  If `e` is the first entry of `L` with
its `"Twitter"` value and `d` is the last record of `D` that has this
`"Twitter"` value and contains `k`, with value `v`, then entry `i` of
`Update(L, D)` maps `k` to `v`.  If no record of `D` with the `"Twitter"` value
of `e` contains `k`, entry `i` keeps what it had at `k` (its old value, or
absence). -/
theorem c5_overwrite (L D : List Record) (i : Nat) (e : Record) (k : String)
    (hi : L[i]? = some e) (hk : k ≠ "id") :
    ((∀ e' ∈ L.take i, username e' ≠ username e) →
      ∀ (pre post : List Record) (d : Record) (v : String), D = pre ++ d :: post →
        username d = username e → d.lookup k = some v →
        (∀ d' ∈ post, username d' = username e → d'.lookup k = none) →
        ((updated L D)[i]?).map (fun r => r.lookup k) = some (some v)) ∧
      ((∀ d ∈ D, username d = username e → d.lookup k = none) →
        ((updated L D)[i]?).map (fun r => r.lookup k) = some (e.lookup k)) := by
  obtain ⟨hlt, hget⟩ := List.getElem?_eq_some.1 hi
  have hh : allocHeap L D i = e := by rw [allocHeap_list L D i hlt, hget]
  constructor
  · intro hfirst pre post d v hD hu hdv hpost
    rw [updated_old L D i hlt]
    simp only [Option.map_some']
    rw [updateOnce_first_lookup L D i e hi hfirst k, if_neg hk, hD,
      lastWritten_last (username e) k v pre post d hu hdv hpost]
    rfl
  · intro hnone
    rw [updated_old L D i hlt]
    simp only [Option.map_some']
    rw [updateOnce_old_lookup L D i e hi k, if_neg hk, written_none]
    · rfl
    · intro x hx hhit
      simp only [decide_eq_true_eq] at hhit
      have hu : username (allocHeap L D i) = username (allocHeap L D x) :=
        existingOf_username _ _ _ i hhit
      rw [hh] at hu
      have hxm : allocHeap L D x ∈ D := by
        have hm : allocHeap L D x ∈ (dataRefs L D).map (allocHeap L D) :=
          List.mem_map_of_mem _ hx
        rwa [map_allocHeap_dataRefs] at hm
      exact hnone _ hxm hu.symm

/-- C5 at the list `[{"Twitter":"@b"}, {"Twitter":"@a","x":"0"}]`, the batch
`[{"Twitter":"@a","x":"1"}, {"Twitter":"@a","x":"2"}]`, entry 1 and key `x`:
the entry ends with `x = 2`, the value of the last record. -/
theorem c5_overwrite_witness :
    [onlyB, a0][1]? = some a0 ∧ "x" ≠ "id" ∧
      (∀ e' ∈ [onlyB, a0].take 1, username e' ≠ username a0) ∧
      ((updated [onlyB, a0] [a1, a2])[1]?).map (fun r => r.lookup "x") = some (some "2") :=
  ⟨by decide, by decide, by decide,
    (c5_overwrite [onlyB, a0] [a1, a2] 1 a0 "x" (by decide) (by decide)).1 (by decide)
      [a1] [] a2 "2" (by decide) (by decide) (by decide) (by intro d' hd'; cases hd')⟩

/-! ## The claims on the extractor and the flattener -/

theorem collectionLoop_ids (cs : List (String × CollectionMetadata)) (cid : GoMap Bool)
    (fn : GoMap String) (k : String) :
    (collectionLoop cs cid fn).1.getBool k = true ↔
      cid.getBool k = true ∨ k ∈ cs.map Prod.fst := by
  induction cs generalizing cid fn with
  | nil => simp [collectionLoop]
  | cons p rest ih =>
    obtain ⟨k0, c⟩ := p
    simp only [collectionLoop, ih, List.map_cons, List.mem_cons]
    unfold GoMap.getBool
    rw [GoMap.lookup_set]
    by_cases h : k = k0
    · simp [h]
    · simp [h]

theorem blockLoop_eq (cid : GoMap Bool) (fn : GoMap String) (bs : List (String × Block))
    (r : List Record) :
    blockLoop cid fn bs r = r ++ (bs.filter (fun kb => decide (kb.2.Value.Type_ = "page")
      && cid.getBool kb.2.Value.ParentID
      && HasPrefix ((entryOf fn kb.2).get "Twitter") "@")).map (fun kb => entryOf fn kb.2) := by
  induction bs generalizing r with
  | nil => simp [blockLoop]
  | cons p rest ih =>
    obtain ⟨k0, b⟩ := p
    simp only [blockLoop, List.filter_cons]
    by_cases h1 : b.Value.Type_ = "page"
    · cases h2 : cid.getBool b.Value.ParentID
      · simp [h1, h2, ih]
      · cases h3 : HasPrefix ((entryOf fn b).get "Twitter") "@"
        · simp [h1, h2, h3, ih]
        · simp [h1, h2, h3, ih]
    · simp [h1, ih]

/-- C7: the inclusion filter of the extractor.  For every response,
`useableDataFromResponse` returns, in the order the blocks are visited, the
record of each block whose type is `page`, whose `parent_id` is a key of
`recordMap.collection` and whose record has a `"Twitter"` field beginning with
`@`, and nothing for any other block; so the `"Twitter"` value of every
returned record begins with `@`.  On the sample response only the page with
Twitter `@alice` is kept: the page with Twitter `alice`, the block of another
type and the page without a known parent are dropped. -/
theorem c7_inclusion :
    (∀ resp : QueryCollectionResponse,
        useableDataFromResponse resp =
          (resp.RecordMap.Block.entries.filter (fun kb => keeps resp kb.2)).map
            (fun kb => entryOf (fieldNames resp) kb.2)) ∧
      (∀ (resp : QueryCollectionResponse) (r : Record),
        r ∈ useableDataFromResponse resp → HasPrefix (r.get "Twitter") "@" = true) ∧
      useableDataFromResponse sampleResponse = [GoMap.ofList [("Twitter", "@alice")]] := by
  have key : ∀ resp : QueryCollectionResponse,
      useableDataFromResponse resp =
        (resp.RecordMap.Block.entries.filter (fun kb => keeps resp kb.2)).map
          (fun kb => entryOf (fieldNames resp) kb.2) := by
    intro resp
    unfold useableDataFromResponse
    simp only []
    rw [blockLoop_eq, List.nil_append]
    congr 1
    apply List.filter_congr
    intro kb _
    have hid := collectionLoop_ids resp.RecordMap.Collection.entries GoMap.empty GoMap.empty
      kb.2.Value.ParentID
    have he : (GoMap.empty : GoMap Bool).getBool kb.2.Value.ParentID = false := rfl
    rw [he] at hid
    simp only [Bool.false_eq_true, false_or] at hid
    unfold keeps fieldNames
    congr 2
    rw [Bool.eq_iff_iff, hid]
    simp
  refine ⟨key, ?_, by decide⟩
  intro resp r hr
  rw [key resp, List.mem_map] at hr
  obtain ⟨kb, hkb, rfl⟩ := hr
  have := (List.mem_filter.1 hkb).2
  unfold keeps at this
  simp only [Bool.and_eq_true] at this
  exact this.2

/-- C7 on the sample response: the record returned is one the filter lets
through. -/
theorem c7_inclusion_witness :
    GoMap.ofList [("Twitter", "@alice")] ∈ useableDataFromResponse sampleResponse ∧
      HasPrefix ((GoMap.ofList [("Twitter", "@alice")] : Record).get "Twitter") "@" = true :=
  ⟨by decide, c7_inclusion.2.1 sampleResponse _ (by decide)⟩

/-- C8, as stated, fails: for the text `<b>` and the URL `http://x` the
output is not the text inserted raw; `html/template` escapes it. -/
theorem c8_anchor_raw_fails :
    turdToString (.arr [.str "<b>", .arr [.arr [.str "a", .str "http://x"]]])
      ≠ "<a href=\"" ++ htmlEscaper "http://x" ++ "\">" ++ "<b>" ++ "</a>" := by
  decide

/-- C8, amended: for every text `t` and URL `u`, `turdToString` of the span
`[t, [["a", u]]]` is `<a href="`, then `u` as `html/template` escapes the start
of a URL in a quoted attribute (filtered, normalised, HTML-escaped), then `">`,
then `t` HTML-escaped, then `</a>`; a text containing `<` or `&` comes out as
`&lt;` and `&amp;`. -/
theorem c8_anchor :
    (∀ t u : String, turdToString (.arr [.str t, .arr [.arr [.str "a", .str u]]])
        = "<a href=\"" ++ htmlEscaper (urlNormalizer (urlFilter u)) ++ "\">"
          ++ htmlEscaper t ++ "</a>") ∧
      turdToString (.arr [.str "a<b&c", .arr [.arr [.str "a", .str "http://x"]]])
        = "<a href=\"http://x\">a&lt;b&amp;c</a>" := by
  refine ⟨fun t u => ?_, by decide⟩
  simp [turdToString, ensureString, linkTemplate]

/-- C9, as stated, fails: for the span `["click", [[["a", "http://x"]]]]`
the output is not the anchor. -/
theorem c9_click_fails : turdToString clickSpan ≠ "<a href=\"http://x\">click</a>" := by
  decide

/-- C9, amended: for the span `["click", [[["a", "http://x"]]]]`, nested as
written, `turdToString` returns the JSON encoding of the whole span,
`["click",[[["a","http://x"]]]]`; for the span `["click", [["a", "http://x"]]]`
it returns exactly `<a href="http://x">click</a>`. -/
theorem c9_click :
    turdToString clickSpan = jsonMarshal clickSpan ∧
      turdToString clickSpan = "[\"click\",[[[\"a\",\"http://x\"]]]]" ∧
      turdToString (.arr [.str "click", .arr [.arr [.str "a", .str "http://x"]]])
        = "<a href=\"http://x\">click</a>" := by
  decide

/-- C10, as stated, fails: the string span `abc` is not rendered verbatim;
it comes out in double quotes. -/
theorem c10_string_verbatim_fails :
    turdToString (.str "abc") ≠ "abc" ∧ turdToString (.str "abc") = "\"abc\"" := by
  decide

/-- C10, amended: for every span that is not an array, `turdToString`
returns the JSON encoding of the span; a string comes out as a JSON string, in
double quotes and escaped. -/
theorem c10_non_array :
    (∀ v : Any, v.isArray = false → turdToString v = jsonMarshal v) ∧
      ∀ s : String, turdToString (.str s)
        = "\"" ++ String.join (s.data.map jsonEscapeRune) ++ "\"" := by
  constructor
  · intro v hv
    cases v with
    | arr l => simp [Any.isArray] at hv
    | _ => rfl
  · intro s
    simp [turdToString, jsonMarshal, jsonString]

/-- C10, amended, at the number `12`. -/
theorem c10_non_array_witness :
    (Any.num "12" (by decide)).isArray = false ∧
      turdToString (.num "12" (by decide)) = jsonMarshal (.num "12" (by decide)) :=
  ⟨rfl, c10_non_array.1 (.num "12" (by decide)) rfl⟩

/-! ## The fallback, the concatenation and the one-element tuple of the flattener -/

/-- Only the string `"a"` is rendered as `a` by `ensureString`: the JSON
encoding of any other kind of value differs from it. -/
theorem ensureString_eq_a (v : Any) (h : ensureString v = "a") : v = .str "a" := by
  cases v with
  | null => exact absurd h (by decide)
  | bool b => cases b <;> exact absurd h (by decide)
  | num text valid =>
    have ht : text = "a" := h
    subst ht
    exact absurd valid (by decide)
  | str s =>
    have hs : s = "a" := h
    rw [hs]
  | arr elems =>
    have := congrArg String.data h
    simp [ensureString, jsonMarshal] at this
  | obj fields =>
    have := congrArg String.data h
    simp [ensureString, jsonMarshal] at this

theorem crapLoop_append (xs : List Any) (b : String) :
    crapLoop xs b = b ++ crapLoop xs "" := by
  induction xs generalizing b with
  | nil => simp [crapLoop]
  | cons x rest ih =>
    simp only [crapLoop]
    rw [ih (b ++ turdToString x), ih ("" ++ turdToString x), String.empty_append,
      String.append_assoc]

theorem notionCrapToString_cons (x : Any) (xs : List Any) :
    notionCrapToString (x :: xs) = turdToString x ++ notionCrapToString xs := by
  unfold notionCrapToString
  simp only [crapLoop]
  rw [crapLoop_append, String.empty_append]

/-- C11: the fallback to literal serialization.  For every array span with
no element or with three or more, and for every two-element span whose second
element is not a one-element array holding a two-element array whose first
element is the string `"a"`, `turdToString` returns the JSON encoding of the
whole span.  The span `["text", [["b"]]]` renders as its own JSON encoding,
`["text",[["b"]]]`. -/
theorem c11_fallback :
    (∀ l : List Any, l.length = 0 ∨ 3 ≤ l.length →
        turdToString (.arr l) = jsonMarshal (.arr l)) ∧
      (∀ x y : Any, isAnchorMark y = false →
        turdToString (.arr [x, y]) = jsonMarshal (.arr [x, y])) ∧
      turdToString textB = jsonMarshal textB ∧
      turdToString textB = "[\"text\",[[\"b\"]]]" := by
  refine ⟨?_, ?_, by decide, by decide⟩
  · intro l hl
    match l, hl with
    | [], _ => rfl
    | [_], h => simp at h
    | [_, _], h => simp at h
    | _ :: _ :: _ :: _, _ => rfl
  · intro x y hy
    match y, hy with
    | .null, _ => rfl
    | .bool _, _ => rfl
    | .num _ _, _ => rfl
    | .str _, _ => rfl
    | .obj _, _ => rfl
    | .arr [], _ => rfl
    | .arr (_ :: _ :: _), _ => rfl
    | .arr [.null], _ => rfl
    | .arr [.bool _], _ => rfl
    | .arr [.num _ _], _ => rfl
    | .arr [.str _], _ => rfl
    | .arr [.obj _], _ => rfl
    | .arr [.arr []], _ => rfl
    | .arr [.arr [_]], _ => rfl
    | .arr [.arr (_ :: _ :: _ :: _)], _ => rfl
    | .arr [.arr [a, b]], h =>
      have hne : ensureString a ≠ "a" := by
        intro he
        rw [ensureString_eq_a a he] at h
        simp [isAnchorMark] at h
      simp [turdToString, hne]

/-- C11 at the two-element span `["text", [["b"]]]`: its second element is
no anchor mark, and the span renders as its JSON encoding. -/
theorem c11_fallback_witness :
    isAnchorMark (.arr [.arr [.str "b"]]) = false ∧
      turdToString (.arr [.str "text", .arr [.arr [.str "b"]]])
        = jsonMarshal (.arr [.str "text", .arr [.arr [.str "b"]]]) :=
  ⟨by decide, c11_fallback.2.1 (.str "text") (.arr [.arr [.str "b"]]) (by decide)⟩

/-- C12: flattening is total and is the in-order concatenation of the
renders of the spans.  `notionCrapToString` of the empty sequence is the empty
string, `notionCrapToString (xs ++ ys)` is `notionCrapToString xs` followed by
`notionCrapToString ys`, `notionCrapToString [s]` is `turdToString s`, and for
every sequence the result is the renders of its spans joined in order. -/
theorem c12_flatten :
    notionCrapToString [] = "" ∧
      (∀ xs ys : List Any,
        notionCrapToString (xs ++ ys) = notionCrapToString xs ++ notionCrapToString ys) ∧
      (∀ s : Any, notionCrapToString [s] = turdToString s) ∧
      (∀ xs : List Any, notionCrapToString xs = String.join (xs.map turdToString)) := by
  refine ⟨rfl, ?_, ?_, ?_⟩
  · intro xs ys
    induction xs with
    | nil =>
      have h0 : notionCrapToString [] = "" := rfl
      rw [List.nil_append, h0, String.empty_append]
    | cons x rest ih =>
      rw [List.cons_append, notionCrapToString_cons, notionCrapToString_cons, ih,
        String.append_assoc]
  · intro s
    have h0 : notionCrapToString [] = "" := rfl
    rw [notionCrapToString_cons, h0, String.append_empty]
  · intro xs
    induction xs with
    | nil => rfl
    | cons x rest ih =>
      rw [notionCrapToString_cons, ih]
      apply String.ext
      simp [String.data_join]

/-- C13: a one-element tuple.  For every value `v`, `turdToString([v])` is
`ensureString(v)`: `v` itself when `v` is a string, the JSON encoding of `v`
otherwise. -/
theorem c13_one_element :
    (∀ v : Any, turdToString (.arr [v]) = ensureString v) ∧
      (∀ s : String, turdToString (.arr [.str s]) = s) ∧
      (∀ v : Any, (∀ s : String, v ≠ .str s) → turdToString (.arr [v]) = jsonMarshal v) := by
  refine ⟨fun _ => rfl, fun _ => rfl, ?_⟩
  intro v hv
  cases v with
  | str s => exact absurd rfl (hv s)
  | _ => rfl

/-- C13 at the one-element tuple `[true]`: the value is no string and the
tuple renders as `true`. -/
theorem c13_one_element_witness :
    (∀ s : String, Any.bool true ≠ .str s) ∧
      turdToString (.arr [.bool true]) = jsonMarshal (.bool true) ∧
      jsonMarshal (.bool true) = "true" :=
  ⟨fun _ h => Any.noConfusion h,
    c13_one_element.2.2 (.bool true) (fun _ h => Any.noConfusion h), rfl⟩

/-! ## Entries and batches the merger leaves as they are -/

/-- The second loop leaves alone every object that no incoming record is
merged into. -/
theorem dataLoop_untouched (idx : GoMap Ref) (D : List Ref) (h : Heap) (new : List Ref)
    (r : Ref) (hI : ∀ u r', idx.lookup u = some r' → username (h r') = u)
    (hr : ∀ e ∈ D, idx.lookup (username (h e)) ≠ some r) :
    (dataLoop idx D h new).1 r = h r := by
  induction D generalizing h new with
  | nil => rfl
  | cons e es ih =>
    simp only [dataLoop]
    cases ht : idx.lookup ((h e).get "Twitter") with
    | some r' =>
      have ht' : idx.lookup (username (h e)) = some r' := ht
      have hu : ∀ x, username (mergeEntries h r' e x) = username (h x) :=
        mergeEntries_username h r' e (hI _ r' ht)
      have hne : r ≠ r' := by
        intro heq
        exact hr e (List.mem_cons_self _ _) (heq ▸ ht')
      rw [ih (mergeEntries h r' e) new
        (fun u r'' hr'' => by rw [hu]; exact hI u r'' hr'')
        (fun e' he' => by rw [hu]; exact hr e' (List.mem_cons_of_mem _ he')),
        mergeEntries_other h r' e r hne]
    | none =>
      exact ih h (new ++ [e]) hI (fun e' he' => hr e' (List.mem_cons_of_mem _ he'))

/-- The entry the lookup of the first call holds for a key is the first entry
of `L` with that key. -/
theorem existing1_some_first (L D : List Record) (u : String) (i : Nat)
    (h : (existing1 L D).lookup u = some i) : ∀ e' ∈ L.take i, username e' ≠ u := by
  intro e' he'
  rw [List.mem_take_iff_getElem] at he'
  obtain ⟨j, hj, rfl⟩ := he'
  rw [Nat.lt_min] at hj
  unfold existing1 at h
  rw [existingOf_lookup, List.find?_eq_some] at h
  obtain ⟨_, as, bs, hsplit, has⟩ := h
  have hmem : j ∈ as ++ i :: bs := by
    have : j ∈ listRefs L := (mem_listRefs L j).2 hj.2
    rwa [hsplit] at this
  rcases List.mem_append.1 hmem with h1 | h1
  · have := has j h1
    rw [allocHeap_list L D j hj.2] at this
    simpa using this
  · rcases List.mem_cons.1 h1 with h2 | h2
    · exact absurd h2 (Nat.ne_of_lt hj.1)
    · exact absurd (range_split_lt L.length i as bs hsplit j h2) (Nat.lt_asymm hj.1)

/-- An entry of `L` that no incoming record is merged into is, after the
first call, the record it was. -/
theorem updated_untouched (L D : List Record) (i : Nat) (e : Record) (hi : L[i]? = some e)
    (hr : ∀ x ∈ dataRefs L D, (existing1 L D).lookup (username (allocHeap L D x)) ≠ some i) :
    (updated L D)[i]? = some e := by
  obtain ⟨hlt, hget⟩ := List.getElem?_eq_some.1 hi
  rw [updated_old L D i hlt, updateOnce_heap,
    dataLoop_untouched (existing1 L D) (dataRefs L D) (allocHeap L D) [] i
      (existingOf_username _ _) hr,
    allocHeap_list L D i hlt, hget]

/-- C14: re-applying a batch adds no entries.  For every list `L` and batch
`D`, also one in which several records share a `"Twitter"` value,
`Update(Update(L, D), D)` has exactly as many entries as `Update(L, D)`. -/
theorem c14_no_new_entries (L D : List Record) :
    (updatedTwice L D).length = (updated L D).length := by
  rw [updatedTwice_eq, updated_eq_map, List.length_map, List.length_map]

/-- C15: pre-existing duplicates are left alone.  Let `e` be entry `i` of
`L`.  If `e` is not the first entry of `L` with its `"Twitter"` value, or if no
record of `D` has the `"Twitter"` value of `e`, then entry `i` of
`Update(L, D)` is `e`, unchanged. -/
theorem c15_left_alone (L D : List Record) (i : Nat) (e : Record) (hi : L[i]? = some e)
    (h : (∃ e' ∈ L.take i, username e' = username e) ∨
      (∀ d ∈ D, username d ≠ username e)) :
    (updated L D)[i]? = some e := by
  obtain ⟨hlt, hget⟩ := List.getElem?_eq_some.1 hi
  apply updated_untouched L D i e hi
  intro x hx hhit
  have hu : username (allocHeap L D i) = username (allocHeap L D x) :=
    existingOf_username _ _ _ i hhit
  rw [allocHeap_list L D i hlt, hget] at hu
  rcases h with ⟨e', he', heu⟩ | h
  · exact existing1_some_first L D _ i hhit e' he' (heu.trans hu)
  · have hxm : allocHeap L D x ∈ D := by
      have hm : allocHeap L D x ∈ (dataRefs L D).map (allocHeap L D) :=
        List.mem_map_of_mem _ hx
      rwa [map_allocHeap_dataRefs] at hm
    exact h _ hxm hu.symm

/-- C15 at the list `[{"Twitter":"@a","x":"0"}, {"Twitter":"@a","x":"1"}]`
and the batch `[{"Twitter":"@a","x":"2"}]`: entry 1 repeats the `"Twitter"`
value of entry 0 and stays `{"Twitter":"@a","x":"1"}`. -/
theorem c15_left_alone_witness :
    [a0, a1][1]? = some a1 ∧
      ((∃ e' ∈ [a0, a1].take 1, username e' = username a1) ∨
        (∀ d ∈ [a2], username d ≠ username a1)) ∧
      (updated [a0, a1] [a2])[1]? = some a1 :=
  ⟨by decide, Or.inl ⟨a0, by decide, by decide⟩,
    c15_left_alone [a0, a1] [a2] 1 a1 (by decide) (Or.inl ⟨a0, by decide, by decide⟩)⟩

/-- C17: merging into an empty list returns the batch verbatim.  For every
batch `D`, `Update` applied to the empty list yields the records of `D`, in the
order of `D` and with every field (also `"id"`) intact, even when several
records of `D` share a `"Twitter"` value. -/
theorem c17_empty_list :
    (∀ D : List Record, updated [] D = D) ∧ updated [] [entryA, a1, a2] = [entryA, a1, a2] := by
  refine ⟨?_, by decide⟩
  intro D
  rw [updated_eq]
  simp [listRefs, isNew]

/-- C18: an empty batch is the identity.  For every list `L`,
`Update(L, [])` leaves the entries of `L` as they are: same length, same
order, same fields. -/
theorem c18_empty_batch (L : List Record) : updated L [] = L := by
  rw [updated_eq]
  have hh : (updateOnce L []).heap = allocHeap L [] := rfl
  rw [hh, map_allocHeap_listRefs, List.filter_nil, List.append_nil]

/-! ## Field names and record keys in the extractor -/

theorem renameField_ne (f : String) :
    renameField f ≠ "Summary/Reason for being on this list" := by
  unfold renameField
  split
  · decide
  · assumption

/-- Every value the schema loop leaves in `fieldName` was there before or is
the renamed name of a field of the schema, stored under the key of that
field. -/
theorem schemaLoop_lookup (fs : List (String × SchemaField)) (fn : GoMap String)
    (k v : String) (h : (schemaLoop fs fn).lookup k = some v) :
    fn.lookup k = some v ∨ ∃ kf ∈ fs, kf.1 = k ∧ v = renameField kf.2.Name := by
  induction fs generalizing fn with
  | nil => exact Or.inl h
  | cons p rest ih =>
    obtain ⟨k0, f⟩ := p
    simp only [schemaLoop] at h
    rcases ih _ h with h1 | ⟨kf, hkf, hk, hv⟩
    · rw [GoMap.lookup_set] at h1
      by_cases hk : k = k0
      · rw [if_pos hk] at h1
        exact Or.inr ⟨(k0, f), List.mem_cons_self _ _, hk.symm, (Option.some.inj h1).symm⟩
      · rw [if_neg hk] at h1
        exact Or.inl h1
    · exact Or.inr ⟨kf, List.mem_cons_of_mem _ hkf, hk, hv⟩

theorem collectionLoop_lookup (cs : List (String × CollectionMetadata)) (cid : GoMap Bool)
    (fn : GoMap String) (k v : String) (h : (collectionLoop cs cid fn).2.lookup k = some v) :
    fn.lookup k = some v ∨
      ∃ kc ∈ cs, ∃ kf ∈ kc.2.Value.Schema.entries, kf.1 = k ∧ v = renameField kf.2.Name := by
  induction cs generalizing cid fn with
  | nil => exact Or.inl h
  | cons p rest ih =>
    obtain ⟨k0, c⟩ := p
    simp only [collectionLoop] at h
    rcases ih _ _ h with h1 | ⟨kc, hkc, hex⟩
    · rcases schemaLoop_lookup _ _ k v h1 with h2 | ⟨kf, hkf, hk, hv⟩
      · exact Or.inl h2
      · exact Or.inr ⟨(k0, c), List.mem_cons_self _ _, kf, hkf, hk, hv⟩
    · exact Or.inr ⟨kc, List.mem_cons_of_mem _ hkc, hex⟩

/-- What `fieldName[k]` is: the empty string, or the renamed name of a schema
field with key `k`. -/
theorem fieldNames_get (resp : QueryCollectionResponse) (k : String) :
    (fieldNames resp).get k = "" ∨
      ∃ kc ∈ resp.RecordMap.Collection.entries, ∃ kf ∈ kc.2.Value.Schema.entries,
        kf.1 = k ∧ (fieldNames resp).get k = renameField kf.2.Name := by
  unfold GoMap.get
  cases hl : (fieldNames resp).lookup k with
  | none => exact Or.inl rfl
  | some v =>
    rcases collectionLoop_lookup _ _ _ k v hl with h1 | ⟨kc, hkc, kf, hkf, hk, hv⟩
    · rw [GoMap.lookup_empty] at h1
      cases h1
    · exact Or.inr ⟨kc, hkc, kf, hkf, hk, hv⟩

theorem fieldNames_unknown (resp : QueryCollectionResponse) (k : String)
    (hk : unknownKey resp k) : (fieldNames resp).get k = "" := by
  rcases fieldNames_get resp k with h | ⟨kc, hkc, kf, hkf, hkk, _⟩
  · exact h
  · exact absurd (List.mem_map.2 ⟨kf, hkf, hkk⟩) (hk kc hkc)

/-- Every field the property loop leaves in `entry` was there before or is
the flattened value of a property, stored under the name `fieldName` gives the
key of that property. -/
theorem propertyLoop_lookup (fn : GoMap String) (ps : List (String × List Any))
    (entry : Record) (key v : String) (h : (propertyLoop fn ps entry).lookup key = some v) :
    entry.lookup key = some v ∨
      ∃ kp ∈ ps, fn.get kp.1 = key ∧ v = notionCrapToString kp.2 := by
  induction ps generalizing entry with
  | nil => exact Or.inl h
  | cons p rest ih =>
    obtain ⟨k0, p0⟩ := p
    simp only [propertyLoop] at h
    rcases ih _ h with h1 | ⟨kp, hkp, hk, hv⟩
    · rw [GoMap.lookup_set] at h1
      by_cases hk : key = fn.get k0
      · rw [if_pos hk] at h1
        exact Or.inr ⟨(k0, p0), List.mem_cons_self _ _, hk.symm, (Option.some.inj h1).symm⟩
      · rw [if_neg hk] at h1
        exact Or.inl h1
    · exact Or.inr ⟨kp, List.mem_cons_of_mem _ hkp, hk, hv⟩

/-- The property loop removes no key. -/
theorem propertyLoop_keeps (fn : GoMap String) (ps : List (String × List Any))
    (entry : Record) (key : String) (h : entry.lookup key ≠ none) :
    (propertyLoop fn ps entry).lookup key ≠ none := by
  induction ps generalizing entry with
  | nil => exact h
  | cons p rest ih =>
    obtain ⟨k0, p0⟩ := p
    simp only [propertyLoop]
    apply ih
    rw [GoMap.lookup_set]
    split
    · simp
    · exact h

/-- Every property leaves a field under the name of its key. -/
theorem propertyLoop_stores (fn : GoMap String) (ps : List (String × List Any))
    (entry : Record) (kp : String × List Any) (h : kp ∈ ps) :
    (propertyLoop fn ps entry).lookup (fn.get kp.1) ≠ none := by
  induction ps generalizing entry with
  | nil => cases h
  | cons p rest ih =>
    obtain ⟨k0, p0⟩ := p
    simp only [propertyLoop]
    rcases List.mem_cons.1 h with h1 | h1
    · subst h1
      apply propertyLoop_keeps
      rw [GoMap.lookup_set_same]
      simp
    · exact ih _ h1

/-- The records `useableDataFromResponse` returns, block by block. -/
theorem useableDataFromResponse_eq (resp : QueryCollectionResponse) :
    useableDataFromResponse resp =
      (resp.RecordMap.Block.entries.filter (fun kb => keeps resp kb.2)).map
        (fun kb => entryOf (fieldNames resp) kb.2) := by
  unfold useableDataFromResponse
  simp only []
  rw [blockLoop_eq, List.nil_append]
  congr 1
  apply List.filter_congr
  intro kb _
  have hid := collectionLoop_ids resp.RecordMap.Collection.entries GoMap.empty GoMap.empty
    kb.2.Value.ParentID
  have he : (GoMap.empty : GoMap Bool).getBool kb.2.Value.ParentID = false := rfl
  rw [he] at hid
  simp only [Bool.false_eq_true, false_or] at hid
  unfold keeps fieldNames
  congr 2
  rw [Bool.eq_iff_iff, hid]
  simp

/-- A returned record is the record of a block that passes the filter. -/
theorem mem_useableData (resp : QueryCollectionResponse) (r : Record)
    (hr : r ∈ useableDataFromResponse resp) :
    ∃ kb ∈ resp.RecordMap.Block.entries, keeps resp kb.2 = true ∧
      r = entryOf (fieldNames resp) kb.2 := by
  rw [useableDataFromResponse_eq, List.mem_map] at hr
  obtain ⟨kb, hkb, rfl⟩ := hr
  exact ⟨kb, (List.mem_filter.1 hkb).1, (List.mem_filter.1 hkb).2, rfl⟩

/-- Every key of the record of a block is the empty string or the renamed
name of a schema field. -/
theorem entryOf_key (resp : QueryCollectionResponse) (b : Block) (key : String)
    (h : (entryOf (fieldNames resp) b).lookup key ≠ none) :
    key = "" ∨ ∃ kc ∈ resp.RecordMap.Collection.entries,
      ∃ kf ∈ kc.2.Value.Schema.entries, key = renameField kf.2.Name := by
  cases hl : (entryOf (fieldNames resp) b).lookup key with
  | none => exact absurd hl h
  | some v =>
    rcases propertyLoop_lookup _ _ _ key v hl with h1 | ⟨kp, _, hk, _⟩
    · rw [GoMap.lookup_empty] at h1
      cases h1
    · rcases fieldNames_get resp kp.1 with h2 | ⟨kc, hkc, kf, hkf, _, hv⟩
      · exact Or.inl (hk.symm.trans h2)
      · exact Or.inr ⟨kc, hkc, kf, hkf, hk.symm.trans hv⟩

/-- When every property of a block has a key that is in no schema, the
record of the block has no key but the empty string. -/
theorem entryOf_unknown (resp : QueryCollectionResponse) (b : Block)
    (hb : ∀ kp ∈ b.Value.Properties.entries, unknownKey resp kp.1) (key : String)
    (h : (entryOf (fieldNames resp) b).lookup key ≠ none) : key = "" := by
  cases hl : (entryOf (fieldNames resp) b).lookup key with
  | none => exact absurd hl h
  | some v =>
    rcases propertyLoop_lookup _ _ _ key v hl with h1 | ⟨kp, hkp, hk, _⟩
    · rw [GoMap.lookup_empty] at h1
      cases h1
    · exact hk.symm.trans (fieldNames_unknown resp kp.1 (hb kp hkp))

/-- C16: the static rename table.
`renameField("Summary/Reason for being on this list")` is `"Summary"`,
`renameField(f)` is `f` for every other string `f`, so `renameField` is
idempotent; and no record returned by `useableDataFromResponse` has the key
`"Summary/Reason for being on this list"`.  On the sample response the
property named `Summary/Reason for being on this list` comes out under
`Summary`. -/
theorem c16_rename :
    renameField "Summary/Reason for being on this list" = "Summary" ∧
      (∀ f : String, f ≠ "Summary/Reason for being on this list" → renameField f = f) ∧
      (∀ f : String, renameField (renameField f) = renameField f) ∧
      (∀ (resp : QueryCollectionResponse) (r : Record), r ∈ useableDataFromResponse resp →
        r.lookup "Summary/Reason for being on this list" = none) ∧
      useableDataFromResponse strayResponse
        = [GoMap.ofList [("Twitter", "@alice"), ("Summary", "why")]] := by
  refine ⟨by decide, ?_, ?_, ?_, by decide⟩
  · intro f hf
    unfold renameField
    rw [if_neg hf]
  · intro f
    unfold renameField
    by_cases hf : f = "Summary/Reason for being on this list"
    · rw [if_pos hf]
      decide
    · rw [if_neg hf, if_neg hf]
  · intro resp r hr
    obtain ⟨kb, _, _, rfl⟩ := mem_useableData resp r hr
    by_contra hne
    rcases entryOf_key resp kb.2 _ hne with h1 | ⟨kc, _, kf, _, h2⟩
    · exact absurd h1 (by decide)
    · exact renameField_ne kf.2.Name h2.symm

/-- C16 on the sample response: the returned record has no field under the
key `Summary/Reason for being on this list`. -/
theorem c16_rename_witness :
    GoMap.ofList [("Twitter", "@alice"), ("Summary", "why")]
        ∈ useableDataFromResponse strayResponse ∧
      (GoMap.ofList [("Twitter", "@alice"), ("Summary", "why")] : Record).lookup
        "Summary/Reason for being on this list" = none :=
  ⟨by decide, c16_rename.2.2.2.1 strayResponse _ (by decide)⟩

/-- C19: unknown property keys collapse onto the empty key.  A property of a
block whose key is in the schema of no collection gets the field name `""`, and
the record of the block then has a field under `""`, holding the flattened
value of a property with that field name.  Every key of a returned record is
`""` or the renamed name of a schema field.  A block all of whose properties
have unknown keys fails the `"Twitter"` filter, and its record is not returned.
On the sample response the record of the stray page is `{"": "@dave"}`. -/
theorem c19_unknown_keys :
    (∀ (resp : QueryCollectionResponse) (b : Block) (kp : String × List Any),
        kp ∈ b.Value.Properties.entries → unknownKey resp kp.1 →
        (fieldNames resp).get kp.1 = "" ∧
        ∃ kp' ∈ b.Value.Properties.entries, (fieldNames resp).get kp'.1 = "" ∧
          (entryOf (fieldNames resp) b).lookup "" = some (notionCrapToString kp'.2)) ∧
      (∀ (resp : QueryCollectionResponse) (r : Record) (key : String),
        r ∈ useableDataFromResponse resp → r.lookup key ≠ none →
        key = "" ∨ ∃ kc ∈ resp.RecordMap.Collection.entries,
          ∃ kf ∈ kc.2.Value.Schema.entries, key = renameField kf.2.Name) ∧
      (∀ (resp : QueryCollectionResponse) (b : Block),
        (∀ kp ∈ b.Value.Properties.entries, unknownKey resp kp.1) →
        HasPrefix ((entryOf (fieldNames resp) b).get "Twitter") "@" = false ∧
          keeps resp b = false ∧
          entryOf (fieldNames resp) b ∉ useableDataFromResponse resp) ∧
      entryOf (fieldNames strayResponse) strayBlock = GoMap.ofList [("", "@dave")] := by
  have hfilter : ∀ (resp : QueryCollectionResponse) (b : Block),
      (∀ kp ∈ b.Value.Properties.entries, unknownKey resp kp.1) →
      HasPrefix ((entryOf (fieldNames resp) b).get "Twitter") "@" = false := by
    intro resp b hb
    have hnone : (entryOf (fieldNames resp) b).lookup "Twitter" = none := by
      by_contra hne
      exact absurd (entryOf_unknown resp b hb "Twitter" hne) (by decide)
    unfold GoMap.get
    rw [hnone]
    rfl
  refine ⟨?_, ?_, ?_, by decide⟩
  · intro resp b kp hkp hunk
    have hget := fieldNames_unknown resp kp.1 hunk
    refine ⟨hget, ?_⟩
    have hst := propertyLoop_stores (fieldNames resp) b.Value.Properties.entries GoMap.empty
      kp hkp
    rw [hget] at hst
    cases hl : (propertyLoop (fieldNames resp) b.Value.Properties.entries GoMap.empty).lookup ""
      with
    | none => exact absurd hl hst
    | some v =>
      rcases propertyLoop_lookup _ _ _ "" v hl with h1 | ⟨kp', hkp', hk, hv⟩
      · rw [GoMap.lookup_empty] at h1
        cases h1
      · exact ⟨kp', hkp', hk, by unfold entryOf; rw [hl, hv]⟩
  · intro resp r key hr hkey
    obtain ⟨kb, _, _, rfl⟩ := mem_useableData resp r hr
    exact entryOf_key resp kb.2 key hkey
  · intro resp b hb
    have hf := hfilter resp b hb
    refine ⟨hf, ?_, ?_⟩
    · unfold keeps
      rw [hf, Bool.and_false]
    · intro hmem
      obtain ⟨kb, _, hk, heq⟩ := mem_useableData resp _ hmem
      unfold keeps at hk
      simp only [Bool.and_eq_true] at hk
      rw [← heq, hf] at hk
      exact absurd hk.2 (by decide)

/-- C19 on the sample response: the one property of the stray page has an
unknown key, and the page does not pass the filter. -/
theorem c19_unknown_keys_witness :
    (∀ kp ∈ strayBlock.Value.Properties.entries, unknownKey strayResponse kp.1) ∧
      keeps strayResponse strayBlock = false :=
  ⟨by decide, (c19_unknown_keys.2.2.1 strayResponse strayBlock (by decide)).2.1⟩

/-! ## The merger when a map may be nil -/

theorem readNil_fill (h : NilHeap) (e : Ref) (k : String) :
    readNil (h e) k = (fill h e).get k := by
  unfold fill readNil
  cases h e <;> rfl

theorem pairsNil_fill (h : NilHeap) (e : Ref) : pairsNil (h e) = (fill h e).entries := by
  unfold fill pairsNil
  cases h e <;> rfl

theorem fill_ne_none (h : NilHeap) (r : Ref) (hu : username (fill h r) ≠ "") : h r ≠ none := by
  intro hn
  apply hu
  unfold fill
  rw [hn]
  rfl

/-- Reading a nil entry as the empty map, the first loop builds the same
lookup. -/
theorem indexLoopNil_eq (h : NilHeap) (E : List Ref) (i : Nat) (m : GoMap Ref)
    (dups : List Nat) : indexLoopNil h E i m dups = indexLoop (fill h) E i m dups := by
  induction E generalizing i m dups with
  | nil => rfl
  | cons e rest ih =>
    simp only [indexLoopNil, indexLoop, readNil_fill]
    cases m.lookup ((fill h e).get "Twitter") with
    | some r => exact ih _ _ _
    | none => exact ih _ _ _

/-- When `into` is not nil the loop of `mergeEntries` runs to its end, does
what it does on the heap read without nil maps, and leaves the nil maps nil. -/
theorem mergeLoopNil_ok (into : Ref) (ps : List (String × String)) (h : NilHeap)
    (hinto : h into ≠ none) :
    ∃ h', mergeLoopNil into ps h = .ok h' ∧ fill h' = mergeLoop into ps (fill h) ∧
      ∀ x, h' x = none ↔ h x = none := by
  induction ps generalizing h with
  | nil => exact ⟨h, rfl, rfl, fun _ => Iff.rfl⟩
  | cons p rest ih =>
    obtain ⟨k, v⟩ := p
    by_cases hk : k = "id"
    · obtain ⟨h', h1, h2, h3⟩ := ih h hinto
      exact ⟨h', by simp only [mergeLoopNil, hk, if_true, h1],
        by simp only [mergeLoop, hk, if_true, h2], h3⟩
    · cases hm : h into with
      | none => exact absurd hm hinto
      | some m =>
        have hne : Function.update h into (some (m.set k v)) into ≠ none := by
          rw [Function.update_same]
          exact Option.some_ne_none _
        obtain ⟨h', h1, h2, h3⟩ := ih (Function.update h into (some (m.set k v))) hne
        have hfill : fill (Function.update h into (some (m.set k v)))
            = Function.update (fill h) into ((fill h into).set k v) := by
          funext x
          by_cases hx : x = into
          · subst hx
            simp [fill, hm]
          · simp [fill, Function.update_noteq hx]
        refine ⟨h', by simp only [mergeLoopNil, hk, if_false, hm, h1], ?_, ?_⟩
        · simp only [mergeLoop, hk, if_false]
          rw [h2, hfill]
        · intro x
          rw [h3 x]
          by_cases hx : x = into
          · subst hx
            simp [hm]
          · rw [Function.update_noteq hx]

theorem mergeEntriesNil_ok (h : NilHeap) (into from_ : Ref) (hinto : h into ≠ none) :
    ∃ h', mergeEntriesNil h into from_ = .ok h' ∧ fill h' = mergeEntries (fill h) into from_ ∧
      ∀ x, h' x = none ↔ h x = none := by
  unfold mergeEntriesNil mergeEntries
  rw [pairsNil_fill]
  exact mergeLoopNil_ok into _ h hinto

/-- When no incoming record is merged into a nil map, the second loop runs to
its end and does what it does on the heap read without nil maps. -/
theorem dataLoopNil_ok (idx : GoMap Ref) (D : List Ref) (h : NilHeap) (new : List Ref)
    (hI : ∀ u r, idx.lookup u = some r → username (fill h r) = u)
    (hP : ∀ e ∈ D, ∀ r, idx.lookup (username (fill h e)) = some r → h r ≠ none) :
    ∃ h' new', dataLoopNil idx D h new = .ok (h', new') ∧
      fill h' = (dataLoop idx D (fill h) new).1 ∧ new' = (dataLoop idx D (fill h) new).2 := by
  induction D generalizing h new with
  | nil => exact ⟨h, new, rfl, rfl, rfl⟩
  | cons e es ih =>
    simp only [dataLoopNil, dataLoop, readNil_fill]
    cases ht : idx.lookup ((fill h e).get "Twitter") with
    | some r =>
      have ht' : idx.lookup (username (fill h e)) = some r := ht
      obtain ⟨h1, hm1, hm2, hm3⟩ :=
        mergeEntriesNil_ok h r e (hP e (List.mem_cons_self _ _) r ht')
      have hu : ∀ x, username (fill h1 x) = username (fill h x) := by
        intro x
        rw [hm2]
        exact mergeEntries_username (fill h) r e (hI _ r ht) x
      obtain ⟨h', new', hd1, hd2, hd3⟩ := ih h1 new
        (fun u r' hr' => by rw [hu]; exact hI u r' hr')
        (fun e' he' r' hr' => by
          rw [hu] at hr'
          intro hn
          exact hP e' (List.mem_cons_of_mem _ he') r' hr' ((hm3 r').1 hn))
      refine ⟨h', new', ?_, ?_, ?_⟩
      · simp only [hm1, hd1]
      · simp only [hd2, hm2]
      · simp only [hd3, hm2]
    | none =>
      obtain ⟨h', new', hd1, hd2, hd3⟩ := ih h (new ++ [e]) hI
        (fun e' he' => hP e' (List.mem_cons_of_mem _ he'))
      exact ⟨h', new', hd1, hd2, hd3⟩

/-- When no incoming record is merged into a nil map, `Update` returns, with
the `nil` error, and is the `Update` of the heap read without nil maps. -/
theorem UpdateNil_ok (h : NilHeap) (l : EntryList) (data : List Ref)
    (hP : ∀ e ∈ data, ∀ r,
      (existingOf (fill h) l.Entries).lookup (username (fill h e)) = some r → h r ≠ none) :
    ∃ res, UpdateNil h l data = .ok res ∧ res.err = none ∧
      fill res.heap = (Update (fill h) l data).heap ∧
      res.list = (Update (fill h) l data).list := by
  obtain ⟨h', new', hd1, hd2, hd3⟩ := dataLoopNil_ok (existingOf (fill h) l.Entries) data h []
    (existingOf_username _ _) hP
  refine ⟨⟨h', ⟨l.Entries ++ new'⟩, none⟩, ?_, rfl, hd2, ?_⟩
  · unfold UpdateNil
    simp only [indexLoopNil_eq]
    have he : (indexLoop (fill h) l.Entries 0 GoMap.empty []).1
        = existingOf (fill h) l.Entries := rfl
    rw [he, hd1]
  · show (⟨l.Entries ++ new'⟩ : EntryList) = ⟨l.Entries ++ _⟩
    rw [hd3]
    rfl

/-- On a heap without nil maps the two definitions of `Update` agree. -/
theorem UpdateNil_of_no_nil (h : Heap) (l : EntryList) (data : List Ref) :
    ∃ res, UpdateNil (fun r => some (h r)) l data = .ok res ∧
      fill res.heap = (Update h l data).heap ∧ res.list = (Update h l data).list ∧
      res.err = (Update h l data).err := by
  obtain ⟨res, h1, h2, h3, h4⟩ := UpdateNil_ok (fun r => some (h r)) l data
    (fun _ _ _ _ => Option.some_ne_none _)
  exact ⟨res, h1, h3, h4, h2⟩

theorem allocNilHeap_list (L D : List (Option Record)) (i : Nat) (hi : i < L.length) :
    allocNilHeap L D i = L[i] := by
  unfold allocNilHeap
  rw [List.getD_append L D _ i hi, List.getD_eq_getElem L _ hi]

theorem allocNilHeap_data (L D : List (Option Record)) (j : Nat) (hj : j < D.length) :
    allocNilHeap L D (L.length + j) = D[j] := by
  unfold allocNilHeap
  rw [List.getD_append_right L D _ _ (Nat.le_add_right _ _), Nat.add_sub_cancel_left,
    List.getD_eq_getElem D _ hj]

/-- A call of `Update` returns, with the `nil` error, when no entry of the
list is nil or when no record of the batch has the `"Twitter"` value `""`. -/
theorem updateNil_ok (L D : List (Option Record))
    (h : (∀ e ∈ L, e ≠ none) ∨ (∀ d ∈ D, readNil d "Twitter" ≠ "")) :
    ∃ res, updateNil L D = .ok res ∧ res.err = none := by
  have hP : ∀ e ∈ (List.range D.length).map (fun j => L.length + j), ∀ r,
      (existingOf (fill (allocNilHeap L D)) (List.range L.length)).lookup
        (username (fill (allocNilHeap L D) e)) = some r → allocNilHeap L D r ≠ none := by
    intro e he r hr
    rcases h with hL | hD
    · have hlt : r < L.length := List.mem_range.1 (existingOf_mem _ _ _ r hr)
      rw [allocNilHeap_list L D r hlt]
      exact hL _ (List.getElem_mem hlt)
    · obtain ⟨j, hj, rfl⟩ := List.mem_map.1 he
      have hjlt : j < D.length := List.mem_range.1 hj
      apply fill_ne_none
      rw [existingOf_username _ _ _ r hr]
      have hu : username (fill (allocNilHeap L D) (L.length + j))
          = readNil (allocNilHeap L D (L.length + j)) "Twitter" :=
        (readNil_fill _ _ _).symm
      rw [hu, allocNilHeap_data L D j hjlt]
      exact hD _ (List.getElem_mem hjlt)
  obtain ⟨res, h1, h2, _, _⟩ := UpdateNil_ok (allocNilHeap L D) ⟨List.range L.length⟩ _ hP
  exact ⟨res, h1, h2⟩

/-- No record the extractor returns has the `"Twitter"` value `""`. -/
theorem useableData_username (resp : QueryCollectionResponse) :
    ∀ d ∈ (useableDataFromResponse resp).map some, readNil d "Twitter" ≠ "" := by
  intro d hd
  obtain ⟨r, hr, rfl⟩ := List.mem_map.1 hd
  obtain ⟨kb, _, hk, rfl⟩ := mem_useableData resp r hr
  unfold keeps at hk
  simp only [Bool.and_eq_true] at hk
  intro hempty
  have hpre := hk.2
  have he : (entryOf (fieldNames resp) kb.2).get "Twitter" = "" := hempty
  rw [he] at hpre
  exact absurd hpre (by decide)

/-- C6, as stated, fails: on the list `[nil]`, as decoded from
`{"entries":[null]}`, and the batch `[{"x":"1"}]`, `Update` does not return: the
nil entry is stored in the lookup under `""`, the record reads `""` for
`"Twitter"`, and `mergeEntries` assigns to the nil map. -/
theorem c6_panics_on_nil :
    panicOf (updateNil [none] [some x1]) = some "assignment to entry in nil map" := by
  decide

/-- C6, amended: a merge does not fail when no entry of the list is a nil
map, or when no record of the batch has the `"Twitter"` value `""`; then
`List.Update` returns, and returns the `nil` error.  The second condition holds
of every batch the extractor builds, so the `Update` that `main` calls returns,
with the `nil` error, whatever the list. -/
theorem c6_no_failure :
    (∀ L D : List (Option Record),
        ((∀ e ∈ L, e ≠ none) ∨ (∀ d ∈ D, readNil d "Twitter" ≠ "")) →
        ∃ res, updateNil L D = .ok res ∧ res.err = none) ∧
      (∀ (L : List (Option Record)) (resp : QueryCollectionResponse),
        ∃ res, updateNil L ((useableDataFromResponse resp).map some) = .ok res ∧
          res.err = none) :=
  ⟨updateNil_ok, fun L resp => updateNil_ok L _ (Or.inr (useableData_username resp))⟩

/-- C6, amended, at the list `[nil, {"Twitter":"@a","x":"0"}]` and the batch
`[{"Twitter":"@a","x":"1"}]`: the batch has no record with the `"Twitter"`
value `""`, and the call returns with the `nil` error. -/
theorem c6_no_failure_witness :
    ((∀ e ∈ [none, some a0], e ≠ none) ∨
        (∀ d ∈ [some a1], readNil d "Twitter" ≠ "")) ∧
      ∃ res, updateNil [none, some a0] [some a1] = .ok res ∧ res.err = none :=
  ⟨Or.inr (by decide), c6_no_failure.1 [none, some a0] [some a1] (Or.inr (by decide))⟩

end AssetList
